import Mathlib

/-!
# Verification of the `linalg` elimination kernel (`src/matrix.py`)

Shallow embedding of the matrix library: rows are lists of exact rationals
(`ℚ` models the spec's exact-rational scalar type), a matrix is a list of
rows, and the three elimination algorithms (`det`, `ref`, `rref`) are
translated line by line from the source.  Fallible operations (construction,
scalar division) return `Except MErr`.  Verbose tracing only prints and never
feeds back into any computed value, so it is not part of the value-level
embedding.
-/

/-- Error taxonomy of the library (spec section 7).  `lengthMismatch` is the
`Row.__add__` check; it is never reachable from the matrix algorithms, where
all rows of a working matrix share one length. -/
inductive MErr where
  | emptyMatrix : MErr
  | raggedRows (lengths : List ℕ) : MErr
  | lengthMismatch : MErr
  | divideByZero : MErr
  | notSquare (dims : ℕ × ℕ) : MErr
  | indexError : MErr
deriving DecidableEq, Repr

/-- A matrix row (`Row.__nums`): a list of exact rationals. -/
abbrev MRow : Type := List ℚ

/-- `Row.__neg__`: elementwise negation. -/
def rowNeg (r : MRow) : MRow := r.map (fun x => -x)

/-- `Row.__mul__`: elementwise multiplication by a scalar. -/
def rowScale (r : MRow) (k : ℚ) : MRow := r.map (fun x => x * k)

/-- `Row.__add__`: elementwise sum.  The source raises `ValueError` when the
lengths differ; every call site inside the embedded algorithms combines rows
of one common length, where the check cannot fire. -/
def rowAdd (a b : MRow) : MRow := List.zipWith (fun x y => x + y) a b

/-- `Row.__truediv__`: `self * (1 / other)`, where Python's `1 / other`
raises `ZeroDivisionError` when `other` is exactly zero (the spec's
`DivideByZero` error). -/
def rowDiv (r : MRow) (k : ℚ) : Except MErr MRow :=
  if k = 0 then .error .divideByZero else .ok (rowScale r (1 / k))

/-- `Row.pivot`: index of the first non-zero entry; `none` models the
source's `-1` sentinel. -/
def rowPivot : MRow → Option ℕ
  | [] => none
  | x :: xs => if x ≠ 0 then some 0 else (rowPivot xs).map (fun i => i + 1)

/-- `Row.is_zero`: every entry equals zero. -/
def rowIsZero (r : MRow) : Prop := ∀ x ∈ r, x = 0

/-- A matrix value (`Matrix.__rows`). -/
abbrev MMat : Type := List MRow

/-- `matrix[i]`: row access.  The source raises `IndexError` out of range;
every access performed by the embedded algorithms on valid input is in
range. -/
def rowAt (M : MMat) (i : ℕ) : MRow := M.getD i []

/-- `matrix[i][j]`: entry access. -/
def entry (M : MMat) (i j : ℕ) : ℚ := (rowAt M i).getD j 0

/-- `Matrix.dim`: `(len(self), len(self.__rows[0]))`. -/
def dimOf (M : MMat) : ℕ × ℕ := (M.length, (rowAt M 0).length)

/-- `Matrix.swap_rows`: simultaneous exchange of rows `i` and `j`. -/
def swapRows (M : MMat) (i j : ℕ) : MMat :=
  (M.set i (rowAt M j)).set j (rowAt M i)

/-- The distinct row lengths of the input, ascending — the constructor's
`sorted(row_lengths)` where `row_lengths` is a set. -/
def distinctLengths (x : List (List ℚ)) : List ℕ :=
  List.insertionSort (fun a b => a ≤ b) ((x.map List.length).dedup)

/-- `Matrix.__init__`: fails with `EmptyMatrix` on zero rows, with
`RaggedRows` (carrying the distinct lengths) when the rows disagree in
length, and otherwise stores the rows unchanged. -/
def mkMatrix (x : List (List ℚ)) : Except MErr MMat :=
  if x.length = 0 then .error .emptyMatrix
  else if 1 < ((x.map List.length).dedup).length then
    .error (.raggedRows (distinctLengths x))
  else .ok x

/-- `Matrix.__deepcopy__`: `Matrix(self.__rows)` — a fresh matrix built from
the current rows through the validating constructor. -/
def deepcopyM (M : MMat) : Except MErr MMat := mkMatrix M

/-- The constructor invariant: at least one row, all rows of one length. -/
def validMat (M : MMat) : Prop :=
  0 < M.length ∧ ∀ r ∈ M, r.length = (rowAt M 0).length

/-- First index of the list whose row has a non-zero entry in column `i` —
the scan of `det`'s inner `for k ... break / else continue`. -/
def findFirstNonzero (M : MMat) (i : ℕ) : List ℕ → Option ℕ
  | [] => none
  | k :: rest => if entry M k i ≠ 0 then some k else findFirstNonzero M i rest

/-- `det`, pivot scan (lines 121-125): first `k ∈ [i, len)` whose entry in
column `i` is non-zero; `none` models the `for ... else: continue` path. -/
def findPivotDet (M : MMat) (i : ℕ) : Option ℕ :=
  findFirstNonzero M i (List.range' i (M.length - i))

/-- `det`, elimination below row `i` (line 143):
`new[j] += -new[i] * new[j][i] / pivot` for each listed `j`. -/
def detElim (i : ℕ) (pivot : ℚ) : List ℕ → MMat → Except MErr MMat
  | [], M => .ok M
  | j :: js, M =>
    match rowDiv (rowScale (rowNeg (rowAt M i)) (entry M j i)) pivot with
    | .error e => .error e
    | .ok d => detElim i pivot js (M.set j (rowAdd (rowAt M j) d))

/-- One iteration of `det`'s outer loop (lines 120-149): find a pivot row,
swap it up (flipping the sign) when it is not already in place, then
eliminate the column below it. -/
def detStep (s : MMat × ℚ) (i : ℕ) : Except MErr (MMat × ℚ) :=
  match findPivotDet s.1 i with
  | none => .ok s
  | some k =>
    let M1 := if k = i then s.1 else swapRows s.1 i k
    let neg1 := if k = i then s.2 else -s.2
    let pivot := entry M1 i i
    match detElim i pivot (List.range' (i + 1) (M1.length - (i + 1))) M1 with
    | .error e => .error e
    | .ok M2 => .ok (M2, neg1)

/-- `det`'s outer loop, folded over the listed column indices. -/
def detLoop : List ℕ → MMat × ℚ → Except MErr (MMat × ℚ)
  | [], s => .ok s
  | i :: rest, s =>
    match detStep s i with
    | .error e => .error e
    | .ok s2 => detLoop rest s2

/-- `reduce(lambda a, c: a * new[c][c], range(len(new)), 1)` (line 151). -/
def diagProd (M : MMat) : ℚ :=
  (List.range M.length).foldl (fun a c => a * entry M c c) 1

/-- `Matrix.det` (lines 109-151).  Line 113 of the source compares
`new.dim()[1]` with itself, so the `NotSquare` branch is embedded exactly as
written: a self-comparison that can never be true. -/
def detE (A : MMat) : Except MErr ℚ :=
  match deepcopyM A with
  | .error e => .error e
  | .ok new =>
    if (dimOf new).2 ≠ (dimOf new).2 then
      .error (.notSquare (dimOf new))
    else
      match detLoop (List.range new.length) (new, 1) with
      | .error e => .error e
      | .ok s => .ok (s.2 * diagProd s.1)

/-- `matrix[i][j]` with the source's bounds behavior: `Row.__getitem__` is a
plain list index and raises `IndexError` out of range.  Unlike `entry`,
which substitutes a default `0` and is adequate only where every access is
provably in range, `entryE` models the abort.  (The row bound is checked
too, though every row index `det` uses is drawn from `range(len(new))` and
is always in range; only the column index can overflow.) -/
def entryE (M : MMat) (i j : ℕ) : Except MErr ℚ :=
  if i < M.length ∧ j < (rowAt M i).length then .ok (entry M i j)
  else .error .indexError

/-- `det`'s pivot scan (lines 121-125) with faithful indexing: each probe
`new[k][i]` can raise `IndexError`, and the scan stops at the first
non-zero probe. -/
def findFirstNonzeroEx (M : MMat) (i : ℕ) : List ℕ → Except MErr (Option ℕ)
  | [] => .ok none
  | k :: rest =>
    match entryE M k i with
    | .error e => .error e
    | .ok x => if x ≠ 0 then .ok (some k) else findFirstNonzeroEx M i rest

/-- `det`'s pivot scan over rows `i ≤ k < len`, checked version. -/
def findPivotDetEx (M : MMat) (i : ℕ) : Except MErr (Option ℕ) :=
  findFirstNonzeroEx M i (List.range' i (M.length - i))

/-- `det`'s elimination below row `i` (line 143) with faithful indexing:
the factor `new[j][i]` is a checked column access. -/
def detElimEx (i : ℕ) (pivot : ℚ) : List ℕ → MMat → Except MErr MMat
  | [], M => .ok M
  | j :: js, M =>
    match entryE M j i with
    | .error e => .error e
    | .ok x =>
      match rowDiv (rowScale (rowNeg (rowAt M i)) x) pivot with
      | .error e => .error e
      | .ok d => detElimEx i pivot js (M.set j (rowAdd (rowAt M j) d))

/-- One iteration of `det`'s outer loop (lines 120-149) with faithful
indexing: the pivot read `new[i][i]` (line 135) is a checked access. -/
def detStepEx (s : MMat × ℚ) (i : ℕ) : Except MErr (MMat × ℚ) :=
  match findPivotDetEx s.1 i with
  | .error e => .error e
  | .ok none => .ok s
  | .ok (some k) =>
    let M1 := if k = i then s.1 else swapRows s.1 i k
    let neg1 := if k = i then s.2 else -s.2
    match entryE M1 i i with
    | .error e => .error e
    | .ok pivot =>
      match detElimEx i pivot (List.range' (i + 1) (M1.length - (i + 1))) M1 with
      | .error e => .error e
      | .ok M2 => .ok (M2, neg1)

/-- `det`'s outer loop, checked version. -/
def detLoopEx : List ℕ → MMat × ℚ → Except MErr (MMat × ℚ)
  | [], s => .ok s
  | i :: rest, s =>
    match detStepEx s i with
    | .error e => .error e
    | .ok s2 => detLoopEx rest s2

/-- The diagonal product `reduce(lambda a, c: a * new[c][c], ...)` (line
151) with each diagonal read `new[c][c]` checked. -/
def diagFoldEx (M : MMat) : List ℕ → ℚ → Except MErr ℚ
  | [], a => .ok a
  | cc :: rest, a =>
    match entryE M cc cc with
    | .error e => .error e
    | .ok x => diagFoldEx M rest (a * x)

/-- `Matrix.det` (lines 109-151) with faithful indexing: identical to
`detE` except that every column access models `IndexError` instead of
reading a default.  On inputs where every access is in range (at most as
many rows as columns) the two coincide step for step; on a taller matrix
this version aborts with `IndexError` exactly where the source does,
because the dead `NotSquare` check (line 113) lets `det` run there. -/
def detEx (A : MMat) : Except MErr ℚ :=
  match deepcopyM A with
  | .error e => .error e
  | .ok new =>
    if (dimOf new).2 ≠ (dimOf new).2 then
      .error (.notSquare (dimOf new))
    else
      match detLoopEx (List.range new.length) (new, 1) with
      | .error e => .error e
      | .ok s =>
        match diagFoldEx s.1 (List.range s.1.length) 1 with
        | .error e => .error e
        | .ok q => .ok (s.2 * q)

/-- Lexicographic head of the source's sorted candidate list (lines
161-163): the first pair attaining the least pivot column.  Candidates are
listed in increasing row order, so this is the `(pivot, index)` minimum. -/
def minPair : List (ℕ × ℕ) → Option (ℕ × ℕ)
  | [] => none
  | c :: rest =>
    match minPair rest with
    | none => some c
    | some b => if c.1 ≤ b.1 then some c else some b

/-- Candidate pivots for `ref` step `i`: `(row.pivot(), index)` for rows
`i ≤ k < len`, rows without a pivot discarded (the `x[0] != -1` filter). -/
def refCandidates (M : MMat) (i : ℕ) : List (ℕ × ℕ) :=
  (List.range' i (M.length - i)).filterMap
    (fun k => (rowPivot (rowAt M k)).map (fun p => (p, k)))

/-- `pivots[0]` of `ref` (lines 161-166): the candidate with the least pivot
column, ties broken by least row index. -/
def choosePivot (M : MMat) (i : ℕ) : Option (ℕ × ℕ) :=
  minPair (refCandidates M i)

/-- `ref`, elimination below row `i` with pivot column `p` (line 188):
`new[j] += -new[i] * new[j][pivot_ind]` — no division on this path. -/
def refElim (i p : ℕ) : List ℕ → MMat → MMat
  | [], M => M
  | j :: js, M =>
    refElim i p js
      (M.set j (rowAdd (rowAt M j) (rowScale (rowNeg (rowAt M i)) (entry M j p))))

/-- One iteration of `ref`'s outer loop (lines 160-194): pick the remaining
row with the least pivot column, read its pivot value, swap it into place,
divide it by the pivot, then eliminate the pivot column below it. -/
def refStep (M : MMat) (i : ℕ) : Except MErr MMat :=
  match choosePivot M i with
  | none => .ok M
  | some pk =>
    let pivot := entry M pk.2 pk.1
    let M1 := swapRows M i pk.2
    match rowDiv (rowAt M1 i) pivot with
    | .error e => .error e
    | .ok r =>
      .ok (refElim i pk.1 (List.range' (i + 1) (M1.length - (i + 1))) (M1.set i r))

/-- `ref`'s outer loop, folded over the listed target-row indices. -/
def refLoop : List ℕ → MMat → Except MErr MMat
  | [], M => .ok M
  | i :: rest, M =>
    match refStep M i with
    | .error e => .error e
    | .ok M2 => refLoop rest M2

/-- `Matrix.ref` (lines 153-196). -/
def refE (A : MMat) : Except MErr MMat :=
  match deepcopyM A with
  | .error e => .error e
  | .ok new => refLoop (List.range new.length) new

/-- `rref`, upward elimination for row `i` with pivot column `p` (line 212):
`new[j] += -new[i] * new[j][pivot_pos] / pivot` for each listed `j < i`. -/
def rrefElim (i p : ℕ) (pivot : ℚ) : List ℕ → MMat → Except MErr MMat
  | [], M => .ok M
  | j :: js, M =>
    match rowDiv (rowScale (rowNeg (rowAt M i)) (entry M j p)) pivot with
    | .error e => .error e
    | .ok d => rrefElim i p pivot js (M.set j (rowAdd (rowAt M j) d))

/-- One iteration of `rref`'s upward loop (lines 201-218). -/
def rrefStep (M : MMat) (i : ℕ) : Except MErr MMat :=
  match rowPivot (rowAt M i) with
  | none => .ok M
  | some p => rrefElim i p (entry M i p) (List.range i) M

/-- `rref`'s upward loop, folded over the listed source-row indices. -/
def rrefLoop : List ℕ → MMat → Except MErr MMat
  | [], M => .ok M
  | i :: rest, M =>
    match rrefStep M i with
    | .error e => .error e
    | .ok M2 => rrefLoop rest M2

/-- `Matrix.rref` (lines 198-220): `ref`, then the upward pass over rows
`1 .. len-1`. -/
def rrefE (A : MMat) : Except MErr MMat :=
  match refE A with
  | .error e => .error e
  | .ok M => rrefLoop (List.range' 1 (M.length - 1)) M

/-- Row-echelon shape as the spec states it: pivot columns weakly increasing
down the non-zero rows, all-zero rows below every non-zero row, and every
pivot entry exactly 1. -/
def IsREF (M : MMat) : Prop :=
  (∀ i j pi pj, i < j → rowPivot (rowAt M i) = some pi →
    rowPivot (rowAt M j) = some pj → pi ≤ pj)
  ∧ (∀ i j, i < j → j < M.length → rowPivot (rowAt M i) = none →
    rowPivot (rowAt M j) = none)
  ∧ (∀ i p, rowPivot (rowAt M i) = some p → entry M i p = 1)

/-- Reduced row-echelon shape: `IsREF` plus each pivot column zero in every
row other than its own. -/
def IsRREF (M : MMat) : Prop :=
  IsREF M ∧ ∀ i p, rowPivot (rowAt M i) = some p →
    ∀ j, j < M.length → j ≠ i → entry M j p = 0

/-! ## Pointwise row lemmas -/

lemma length_rowNeg (r : MRow) : (rowNeg r).length = r.length := by
  simp [rowNeg]

lemma length_rowScale (r : MRow) (k : ℚ) : (rowScale r k).length = r.length := by
  simp [rowScale]

lemma length_rowAdd (a b : MRow) (h : a.length = b.length) :
    (rowAdd a b).length = a.length := by
  simp [rowAdd, h]

lemma getD_rowNeg (r : MRow) (i : ℕ) : (rowNeg r).getD i 0 = -(r.getD i 0) := by
  rcases lt_or_ge i r.length with h | h
  · rw [List.getD_eq_getElem _ _ (by simpa [rowNeg] using h),
      List.getD_eq_getElem _ _ h]
    simp [rowNeg]
  · rw [List.getD_eq_default _ _ (by simpa [rowNeg] using h),
      List.getD_eq_default _ _ h]
    simp

lemma getD_rowScale (r : MRow) (k : ℚ) (i : ℕ) :
    (rowScale r k).getD i 0 = r.getD i 0 * k := by
  rcases lt_or_ge i r.length with h | h
  · rw [List.getD_eq_getElem _ _ (by simpa [rowScale] using h),
      List.getD_eq_getElem _ _ h]
    simp [rowScale]
  · rw [List.getD_eq_default _ _ (by simpa [rowScale] using h),
      List.getD_eq_default _ _ h]
    simp

lemma getD_rowAdd (a b : MRow) (h : a.length = b.length) (i : ℕ) :
    (rowAdd a b).getD i 0 = a.getD i 0 + b.getD i 0 := by
  have hlen : (rowAdd a b).length = a.length := length_rowAdd a b h
  rcases lt_or_ge i a.length with h1 | h1
  · rw [List.getD_eq_getElem _ _ (by omega), List.getD_eq_getElem _ _ h1,
      List.getD_eq_getElem _ _ (by omega)]
    simp [rowAdd]
  · rw [List.getD_eq_default _ _ (by omega), List.getD_eq_default _ _ h1,
      List.getD_eq_default _ _ (by omega)]
    simp

/-! ## Pivot lemmas -/

lemma rowPivot_none_iff (r : MRow) : rowPivot r = none ↔ ∀ x ∈ r, x = 0 := by
  induction r with
  | nil => simp [rowPivot]
  | cons x xs ih =>
    by_cases hx : x = 0
    · simp [rowPivot, hx, ih]
    · simp [rowPivot, hx]

lemma rowPivot_none_getD {r : MRow} (h : rowPivot r = none) (q : ℕ) :
    r.getD q 0 = 0 := by
  rcases lt_or_ge q r.length with h1 | h1
  · rw [List.getD_eq_getElem _ _ h1]
    exact (rowPivot_none_iff r).1 h _ (List.getElem_mem h1)
  · exact List.getD_eq_default _ _ h1

lemma rowPivot_cons_zero {xs : MRow} :
    rowPivot ((0 : ℚ) :: xs) = (rowPivot xs).map (fun i => i + 1) := by
  simp [rowPivot]

lemma rowPivot_cons_nonzero {x : ℚ} {xs : MRow} (hx : x ≠ 0) :
    rowPivot (x :: xs) = some 0 := by
  simp [rowPivot, hx]

lemma rowPivot_some_lt {r : MRow} {p : ℕ} (h : rowPivot r = some p) :
    p < r.length := by
  induction r generalizing p with
  | nil => simp [rowPivot] at h
  | cons x xs ih =>
    by_cases hx : x = 0
    · subst hx
      rw [rowPivot_cons_zero] at h
      cases hp : rowPivot xs with
      | none => rw [hp] at h; simp at h
      | some q =>
        rw [hp] at h
        simp only [Option.map_some', Option.some.injEq] at h
        have := ih hp
        simp only [List.length_cons]
        omega
    · rw [rowPivot_cons_nonzero hx] at h
      simp only [Option.some.injEq] at h
      simp only [List.length_cons]
      omega

lemma rowPivot_some_nonzero {r : MRow} {p : ℕ} (h : rowPivot r = some p) :
    r.getD p 0 ≠ 0 := by
  induction r generalizing p with
  | nil => simp [rowPivot] at h
  | cons x xs ih =>
    by_cases hx : x = 0
    · subst hx
      rw [rowPivot_cons_zero] at h
      cases hp : rowPivot xs with
      | none => rw [hp] at h; simp at h
      | some q =>
        rw [hp] at h
        simp only [Option.map_some', Option.some.injEq] at h
        subst h
        simpa [List.getD_cons_succ] using ih hp
    · rw [rowPivot_cons_nonzero hx] at h
      simp only [Option.some.injEq] at h
      subst h
      simpa [List.getD_cons_zero] using hx

lemma rowPivot_some_before {r : MRow} {p : ℕ} (h : rowPivot r = some p)
    {q : ℕ} (hq : q < p) : r.getD q 0 = 0 := by
  induction r generalizing p q with
  | nil => simp [rowPivot] at h
  | cons x xs ih =>
    by_cases hx : x = 0
    · subst hx
      rw [rowPivot_cons_zero] at h
      cases hp : rowPivot xs with
      | none => rw [hp] at h; simp at h
      | some m =>
        rw [hp] at h
        simp only [Option.map_some', Option.some.injEq] at h
        subst h
        cases q with
        | zero => simp [List.getD_cons_zero]
        | succ q => simpa [List.getD_cons_succ] using ih hp (by omega)
    · rw [rowPivot_cons_nonzero hx] at h
      simp only [Option.some.injEq] at h
      omega

lemma rowPivot_eq_some {r : MRow} {p : ℕ} (hlt : p < r.length)
    (hnz : r.getD p 0 ≠ 0) (hbef : ∀ q, q < p → r.getD q 0 = 0) :
    rowPivot r = some p := by
  induction r generalizing p with
  | nil => simp at hlt
  | cons x xs ih =>
    cases p with
    | zero =>
      simp only [List.getD_cons_zero] at hnz
      simp [rowPivot, hnz]
    | succ p =>
      have hx : x = 0 := by simpa [List.getD_cons_zero] using hbef 0 (by omega)
      have : rowPivot xs = some p := by
        refine ih (by simpa using hlt) (by simpa [List.getD_cons_succ] using hnz) ?_
        intro q hq
        simpa [List.getD_cons_succ] using hbef (q + 1) (by omega)
      simp [rowPivot, hx, this]

/-! ## Access and update lemmas -/

lemma rowAt_set_self (M : MMat) (i : ℕ) (r : MRow) (h : i < M.length) :
    rowAt (M.set i r) i = r := by
  rw [rowAt, List.getD_eq_getElem _ _ (by simpa using h)]
  exact List.getElem_set_self _

lemma rowAt_set_ne (M : MMat) {i j : ℕ} {r : MRow} (h : i ≠ j) :
    rowAt (M.set i r) j = rowAt M j := by
  rcases lt_or_ge j M.length with h1 | h1
  · rw [rowAt, rowAt, List.getD_eq_getElem _ _ (by simpa using h1),
      List.getD_eq_getElem _ _ h1]
    exact List.getElem_set_ne h _
  · rw [rowAt, rowAt, List.getD_eq_default _ _ (by simpa using h1),
      List.getD_eq_default _ _ h1]

lemma length_swapRows (M : MMat) (i j : ℕ) : (swapRows M i j).length = M.length := by
  simp [swapRows]

lemma rowAt_swapRows_right (M : MMat) {i j : ℕ} (hj : j < M.length) :
    rowAt (swapRows M i j) j = rowAt M i := by
  rw [swapRows]
  exact rowAt_set_self _ _ _ (by simpa using hj)

lemma rowAt_swapRows_left (M : MMat) {i j : ℕ} (hi : i < M.length) :
    rowAt (swapRows M i j) i = rowAt M j := by
  by_cases hij : i = j
  · subst hij
    rw [swapRows]
    rw [rowAt_set_self _ _ _ (by simpa using hi)]
  · rw [swapRows, rowAt_set_ne _ (fun h2 => hij h2.symm), rowAt_set_self _ _ _ hi]

lemma rowAt_swapRows_other (M : MMat) {i j a : ℕ} (ha1 : a ≠ i) (ha2 : a ≠ j) :
    rowAt (swapRows M i j) a = rowAt M a := by
  rw [swapRows, rowAt_set_ne _ (fun h2 => ha2 h2.symm),
    rowAt_set_ne _ (fun h2 => ha1 h2.symm)]

lemma rowAt_out_of_range {M : MMat} {i : ℕ} (h : M.length ≤ i) : rowAt M i = [] :=
  List.getD_eq_default _ _ h

/-! ## Shape lemmas -/

/-- Every row of `M` has length `c` and `M` has `n` rows. -/
def mShape (n c : ℕ) (M : MMat) : Prop :=
  M.length = n ∧ ∀ r ∈ M, r.length = c

lemma mShape_rowAt {n c : ℕ} {M : MMat} (h : mShape n c M) {i : ℕ} (hi : i < n) :
    (rowAt M i).length = c := by
  obtain ⟨hn, hc⟩ := h
  have hlen : i < M.length := by omega
  rw [rowAt, List.getD_eq_getElem _ _ hlen]
  exact hc _ (List.getElem_mem hlen)

lemma mShape_entry_default {n c : ℕ} {M : MMat} (h : mShape n c M) {i q : ℕ}
    (hi : i < n) (hq : c ≤ q) : entry M i q = 0 := by
  rw [entry, List.getD_eq_default]
  rw [mShape_rowAt h hi]
  exact hq

lemma mShape_set {n c : ℕ} {M : MMat} (h : mShape n c M) {r : MRow}
    (hr : r.length = c) (i : ℕ) : mShape n c (M.set i r) := by
  refine ⟨by simpa using h.1, ?_⟩
  intro s hs
  rcases List.mem_or_eq_of_mem_set hs with hmem | rfl
  · exact h.2 _ hmem
  · exact hr

lemma mShape_swapRows {n c : ℕ} {M : MMat} (h : mShape n c M) {i j : ℕ}
    (hi : i < n) (hj : j < n) : mShape n c (swapRows M i j) := by
  rw [swapRows]
  exact mShape_set (mShape_set h (mShape_rowAt h hj) i) (mShape_rowAt h hi) j

lemma validMat_iff_mShape (M : MMat) :
    validMat M ↔ 0 < M.length ∧ mShape M.length (rowAt M 0).length M := by
  unfold validMat mShape
  tauto

/-! ## Pivot-selection lemmas -/

lemma minPair_eq_none_iff (l : List (ℕ × ℕ)) : minPair l = none ↔ l = [] := by
  cases l with
  | nil => simp [minPair]
  | cons c rest =>
    simp only [minPair]
    cases minPair rest with
    | none => simp
    | some b =>
      by_cases h : c.1 ≤ b.1 <;> simp [h]

lemma minPair_mem {l : List (ℕ × ℕ)} {c : ℕ × ℕ} (h : minPair l = some c) :
    c ∈ l := by
  induction l generalizing c with
  | nil => simp [minPair] at h
  | cons a rest ih =>
    simp only [minPair] at h
    cases hm : minPair rest with
    | none =>
      simp only [hm] at h
      simp only [Option.some.injEq] at h
      subst h
      exact List.mem_cons_self _ _
    | some b =>
      simp only [hm] at h
      by_cases hle : a.1 ≤ b.1
      · rw [if_pos hle] at h
        simp only [Option.some.injEq] at h
        subst h
        exact List.mem_cons_self _ _
      · rw [if_neg hle] at h
        simp only [Option.some.injEq] at h
        subst h
        exact List.mem_cons_of_mem _ (ih hm)

lemma minPair_min {l : List (ℕ × ℕ)} {c : ℕ × ℕ} (h : minPair l = some c) :
    ∀ x ∈ l, c.1 ≤ x.1 := by
  induction l generalizing c with
  | nil => simp [minPair] at h
  | cons a rest ih =>
    simp only [minPair] at h
    intro x hx
    cases hm : minPair rest with
    | none =>
      have hrest : rest = [] := (minPair_eq_none_iff rest).1 hm
      subst hrest
      simp only [hm] at h
      simp only [Option.some.injEq] at h
      subst h
      simp at hx
      subst hx
      exact le_refl _
    | some b =>
      simp only [hm] at h
      rcases List.mem_cons.1 hx with hxa | hx2
      · by_cases hle : a.1 ≤ b.1
        · rw [if_pos hle] at h
          simp only [Option.some.injEq] at h
          subst h
          rw [hxa]
        · rw [if_neg hle] at h
          simp only [Option.some.injEq] at h
          subst h
          rw [hxa]
          omega
      · have hbx := ih hm x hx2
        by_cases hle : a.1 ≤ b.1
        · rw [if_pos hle] at h
          simp only [Option.some.injEq] at h
          subst h
          omega
        · rw [if_neg hle] at h
          simp only [Option.some.injEq] at h
          subst h
          exact hbx

lemma mem_refCandidates {M : MMat} {i p k : ℕ} :
    (p, k) ∈ refCandidates M i ↔
      i ≤ k ∧ k < M.length ∧ rowPivot (rowAt M k) = some p := by
  unfold refCandidates
  rw [List.mem_filterMap]
  constructor
  · rintro ⟨a, ha, hsome⟩
    cases hpv : rowPivot (rowAt M a) with
    | none => rw [hpv] at hsome; simp at hsome
    | some q =>
      rw [hpv] at hsome
      simp only [Option.map_some', Option.some.injEq, Prod.mk.injEq] at hsome
      obtain ⟨rfl, rfl⟩ := hsome
      have := List.mem_range'_1.1 ha
      exact ⟨by omega, by omega, hpv⟩
  · rintro ⟨h1, h2, h3⟩
    refine ⟨k, List.mem_range'_1.2 ⟨h1, by omega⟩, ?_⟩
    rw [h3]
    simp

lemma choosePivot_none_iff {M : MMat} {i : ℕ} :
    choosePivot M i = none ↔
      ∀ k, i ≤ k → k < M.length → rowPivot (rowAt M k) = none := by
  unfold choosePivot
  rw [minPair_eq_none_iff]
  constructor
  · intro h k hik hk
    cases hpv : rowPivot (rowAt M k) with
    | none => rfl
    | some p =>
      have : (p, k) ∈ refCandidates M i := mem_refCandidates.2 ⟨hik, hk, hpv⟩
      rw [h] at this
      simp at this
  · intro h
    unfold refCandidates
    rw [List.filterMap_eq_nil_iff]
    intro k hk
    have := List.mem_range'_1.1 hk
    rw [h k (by omega) (by omega)]
    rfl

lemma choosePivot_spec {M : MMat} {i p k : ℕ}
    (h : choosePivot M i = some (p, k)) :
    i ≤ k ∧ k < M.length ∧ rowPivot (rowAt M k) = some p ∧
      ∀ b q, i ≤ b → b < M.length → rowPivot (rowAt M b) = some q → p ≤ q := by
  have hmem := mem_refCandidates.1 (minPair_mem h)
  refine ⟨hmem.1, hmem.2.1, hmem.2.2, ?_⟩
  intro b q hib hb hpv
  have : (q, b) ∈ refCandidates M i := mem_refCandidates.2 ⟨hib, hb, hpv⟩
  exact minPair_min h (q, b) this

lemma findFirstNonzero_none {M : MMat} {i : ℕ} {l : List ℕ}
    (h : findFirstNonzero M i l = none) : ∀ k ∈ l, entry M k i = 0 := by
  induction l with
  | nil => simp
  | cons a rest ih =>
    intro k hk
    rw [findFirstNonzero] at h
    by_cases ha : entry M a i ≠ 0
    · rw [if_pos ha] at h
      simp at h
    · rw [if_neg ha] at h
      rcases List.mem_cons.1 hk with rfl | hk2
      · simpa using ha
      · exact ih h k hk2

lemma findFirstNonzero_some {M : MMat} {i : ℕ} {l : List ℕ} {k : ℕ}
    (h : findFirstNonzero M i l = some k) : k ∈ l ∧ entry M k i ≠ 0 := by
  induction l with
  | nil => simp [findFirstNonzero] at h
  | cons a rest ih =>
    rw [findFirstNonzero] at h
    by_cases ha : entry M a i ≠ 0
    · rw [if_pos ha] at h
      simp only [Option.some.injEq] at h
      subst h
      exact ⟨List.mem_cons_self _ _, ha⟩
    · rw [if_neg ha] at h
      obtain ⟨h1, h2⟩ := ih h
      exact ⟨List.mem_cons_of_mem _ h1, h2⟩

lemma findPivotDet_none {M : MMat} {i : ℕ} (h : findPivotDet M i = none) :
    ∀ k, i ≤ k → k < M.length → entry M k i = 0 := by
  intro k hik hk
  exact findFirstNonzero_none h k (List.mem_range'_1.2 ⟨hik, by omega⟩)

lemma findPivotDet_some {M : MMat} {i k : ℕ} (h : findPivotDet M i = some k) :
    i ≤ k ∧ k < M.length ∧ entry M k i ≠ 0 := by
  obtain ⟨h1, h2⟩ := findFirstNonzero_some h
  have := List.mem_range'_1.1 h1
  exact ⟨by omega, by omega, h2⟩

/-! ## Elimination-loop characterizations -/

lemma rowAt_eq_getElem {M : MMat} {i : ℕ} (h : i < M.length) : rowAt M i = M[i] :=
  List.getD_eq_getElem _ _ h

lemma mShape_of_rowAt {n c : ℕ} {M : MMat} (hlen : M.length = n)
    (h : ∀ a, a < n → (rowAt M a).length = c) : mShape n c M := by
  refine ⟨hlen, ?_⟩
  intro r hr
  obtain ⟨a, ha, rfl⟩ := List.mem_iff_getElem.1 hr
  rw [← rowAt_eq_getElem ha]
  exact h a (by omega)

lemma entry_congr {M1 M2 : MMat} {a b q : ℕ} (h : rowAt M1 a = rowAt M2 b) :
    entry M1 a q = entry M2 b q := by
  rw [entry, entry, h]

lemma refElim_rowAt {i p : ℕ} : ∀ (js : List ℕ), i ∉ js → js.Nodup →
    ∀ (M : MMat) (a : ℕ), rowAt (refElim i p js M) a =
      if a ∈ js then rowAdd (rowAt M a) (rowScale (rowNeg (rowAt M i)) (entry M a p))
      else rowAt M a := by
  intro js
  induction js with
  | nil =>
    intro _ _ M a
    simp [refElim]
  | cons j js ih =>
    intro hni hnd M a
    have hij : i ≠ j := fun h => hni (h ▸ List.mem_cons_self j js)
    have hni2 : i ∉ js := fun h => hni (List.mem_cons_of_mem _ h)
    have hjd : j ∉ js := (List.nodup_cons.1 hnd).1
    have hnd2 : js.Nodup := (List.nodup_cons.1 hnd).2
    rw [refElim, ih hni2 hnd2]
    have hM1i : rowAt (M.set j (rowAdd (rowAt M j)
        (rowScale (rowNeg (rowAt M i)) (entry M j p)))) i = rowAt M i :=
      rowAt_set_ne M (fun h => hij h.symm)
    by_cases haj : a = j
    · subst haj
      rw [if_neg hjd, if_pos (List.mem_cons_self _ _)]
      rcases lt_or_ge a M.length with hlt | hge
      · exact rowAt_set_self _ _ _ hlt
      · rw [List.set_eq_of_length_le hge, rowAt_out_of_range hge]
        simp [rowAdd]
    · have hja : j ≠ a := fun h => haj h.symm
      have hM1a : rowAt (M.set j (rowAdd (rowAt M j)
          (rowScale (rowNeg (rowAt M i)) (entry M j p)))) a = rowAt M a :=
        rowAt_set_ne M hja
      by_cases has : a ∈ js
      · rw [if_pos has, if_pos (List.mem_cons_of_mem _ has), hM1a, hM1i,
          entry_congr hM1a]
      · rw [if_neg has, if_neg (by simp [haj, has]), hM1a]

lemma refElim_length {i p : ℕ} : ∀ (js : List ℕ) (M : MMat),
    (refElim i p js M).length = M.length := by
  intro js
  induction js with
  | nil => intro M; simp [refElim]
  | cons j js ih => intro M; rw [refElim, ih]; simp

lemma detElim_rowAt {i : ℕ} {pv : ℚ} (hpv : pv ≠ 0) : ∀ (js : List ℕ), i ∉ js →
    js.Nodup → ∀ (M : MMat), ∃ M2, detElim i pv js M = .ok M2 ∧
      M2.length = M.length ∧ ∀ a, rowAt M2 a =
        if a ∈ js then
          rowAdd (rowAt M a)
            (rowScale (rowScale (rowNeg (rowAt M i)) (entry M a i)) (1 / pv))
        else rowAt M a := by
  intro js
  induction js with
  | nil =>
    intro _ _ M
    exact ⟨M, rfl, rfl, fun a => by simp⟩
  | cons j js ih =>
    intro hni hnd M
    have hij : i ≠ j := fun h => hni (h ▸ List.mem_cons_self j js)
    have hni2 : i ∉ js := fun h => hni (List.mem_cons_of_mem _ h)
    have hjd : j ∉ js := (List.nodup_cons.1 hnd).1
    have hnd2 : js.Nodup := (List.nodup_cons.1 hnd).2
    obtain ⟨M2, hok, hlen, hrows⟩ := ih hni2 hnd2
      (M.set j (rowAdd (rowAt M j)
        (rowScale (rowScale (rowNeg (rowAt M i)) (entry M j i)) (1 / pv))))
    refine ⟨M2, ?_, ?_, ?_⟩
    · rw [detElim, rowDiv, if_neg hpv]
      exact hok
    · rw [hlen]; simp
    · intro a
      rw [hrows a]
      have hM1i : rowAt (M.set j (rowAdd (rowAt M j)
          (rowScale (rowScale (rowNeg (rowAt M i)) (entry M j i)) (1 / pv)))) i =
          rowAt M i :=
        rowAt_set_ne M (fun h => hij h.symm)
      by_cases haj : a = j
      · subst haj
        rw [if_neg hjd, if_pos (List.mem_cons_self _ _)]
        rcases lt_or_ge a M.length with hlt | hge
        · exact rowAt_set_self _ _ _ hlt
        · rw [List.set_eq_of_length_le hge, rowAt_out_of_range hge]
          simp [rowAdd]
      · have hja : j ≠ a := fun h => haj h.symm
        have hM1a : rowAt (M.set j (rowAdd (rowAt M j)
            (rowScale (rowScale (rowNeg (rowAt M i)) (entry M j i)) (1 / pv)))) a =
            rowAt M a :=
          rowAt_set_ne M hja
        by_cases has : a ∈ js
        · rw [if_pos has, if_pos (List.mem_cons_of_mem _ has), hM1a, hM1i,
            entry_congr hM1a]
        · rw [if_neg has, if_neg (by simp [haj, has]), hM1a]

lemma rrefElim_rowAt {i p : ℕ} {pv : ℚ} (hpv : pv ≠ 0) : ∀ (js : List ℕ),
    i ∉ js → js.Nodup → ∀ (M : MMat), ∃ M2, rrefElim i p pv js M = .ok M2 ∧
      M2.length = M.length ∧ ∀ a, rowAt M2 a =
        if a ∈ js then
          rowAdd (rowAt M a)
            (rowScale (rowScale (rowNeg (rowAt M i)) (entry M a p)) (1 / pv))
        else rowAt M a := by
  intro js
  induction js with
  | nil =>
    intro _ _ M
    exact ⟨M, rfl, rfl, fun a => by simp⟩
  | cons j js ih =>
    intro hni hnd M
    have hij : i ≠ j := fun h => hni (h ▸ List.mem_cons_self j js)
    have hni2 : i ∉ js := fun h => hni (List.mem_cons_of_mem _ h)
    have hjd : j ∉ js := (List.nodup_cons.1 hnd).1
    have hnd2 : js.Nodup := (List.nodup_cons.1 hnd).2
    obtain ⟨M2, hok, hlen, hrows⟩ := ih hni2 hnd2
      (M.set j (rowAdd (rowAt M j)
        (rowScale (rowScale (rowNeg (rowAt M i)) (entry M j p)) (1 / pv))))
    refine ⟨M2, ?_, ?_, ?_⟩
    · rw [rrefElim, rowDiv, if_neg hpv]
      exact hok
    · rw [hlen]; simp
    · intro a
      rw [hrows a]
      have hM1i : rowAt (M.set j (rowAdd (rowAt M j)
          (rowScale (rowScale (rowNeg (rowAt M i)) (entry M j p)) (1 / pv)))) i =
          rowAt M i :=
        rowAt_set_ne M (fun h => hij h.symm)
      by_cases haj : a = j
      · subst haj
        rw [if_neg hjd, if_pos (List.mem_cons_self _ _)]
        rcases lt_or_ge a M.length with hlt | hge
        · exact rowAt_set_self _ _ _ hlt
        · rw [List.set_eq_of_length_le hge, rowAt_out_of_range hge]
          simp [rowAdd]
      · have hja : j ≠ a := fun h => haj h.symm
        have hM1a : rowAt (M.set j (rowAdd (rowAt M j)
            (rowScale (rowScale (rowNeg (rowAt M i)) (entry M j p)) (1 / pv)))) a =
            rowAt M a :=
          rowAt_set_ne M hja
        by_cases has : a ∈ js
        · rw [if_pos has, if_pos (List.mem_cons_of_mem _ has), hM1a, hM1i,
            entry_congr hM1a]
        · rw [if_neg has, if_neg (by simp [haj, has]), hM1a]

/-! ## The row-echelon loop invariant -/

/-- Invariant of `ref`'s outer loop before processing target row `i`:
a processed pivot-less row means everything from it down is zero, and a
processed pivot row has pivot entry exactly 1 with every lower row zero
throughout the columns up to and including its pivot column. -/
def RefInv (i : ℕ) (M : MMat) : Prop :=
  (∀ a, a < i → rowPivot (rowAt M a) = none →
    ∀ b, a ≤ b → b < M.length → rowPivot (rowAt M b) = none)
  ∧ (∀ a p, a < i → rowPivot (rowAt M a) = some p →
    entry M a p = 1 ∧ ∀ b, a < b → b < M.length → ∀ q, q ≤ p → entry M b q = 0)

lemma refInv_zero (M : MMat) : RefInv 0 M :=
  ⟨fun a ha => by omega, fun a p ha => by omega⟩

lemma refInv_mono {i j : ℕ} {M : MMat} (h : RefInv i M) (hji : j ≤ i) :
    RefInv j M :=
  ⟨fun a ha => h.1 a (by omega), fun a p ha => h.2 a p (by omega)⟩

lemma refStep_inv {n c i : ℕ} {M : MMat} (hsh : mShape n c M) (hi : i < n)
    (hinv : RefInv i M) :
    ∃ M2, refStep M i = .ok M2 ∧ mShape n c M2 ∧ RefInv (i + 1) M2 := by
  have hnM : M.length = n := hsh.1
  cases hcp : choosePivot M i with
  | none =>
    refine ⟨M, by rw [refStep, hcp], hsh, ?_, ?_⟩
    · intro a ha hnone b hab hb
      rcases Nat.lt_or_ge a i with ha2 | ha2
      · exact hinv.1 a ha2 hnone b hab hb
      · have ha3 : a = i := by omega
        subst ha3
        exact choosePivot_none_iff.1 hcp b (by omega) hb
    · intro a p ha hsome
      rcases Nat.lt_or_ge a i with ha2 | ha2
      · exact hinv.2 a p ha2 hsome
      · have ha3 : a = i := by omega
        subst ha3
        rw [choosePivot_none_iff.1 hcp a (by omega) (by omega)] at hsome
        cases hsome
  | some pk =>
    obtain ⟨p, k⟩ := pk
    obtain ⟨hik, hkM, hpvt, hmin⟩ := choosePivot_spec hcp
    have hkn : k < n := by omega
    have hpv : entry M k p ≠ 0 := rowPivot_some_nonzero hpvt
    have hplt : p < c := by
      have := rowPivot_some_lt hpvt
      rwa [mShape_rowAt hsh hkn] at this
    -- every active row vanishes strictly before column p
    have hb_zero : ∀ b, i ≤ b → b < n → ∀ q, q < p → entry M b q = 0 := by
      intro b hib hb q hq
      cases hpb : rowPivot (rowAt M b) with
      | none => exact rowPivot_none_getD hpb q
      | some pb =>
        have hple : p ≤ pb := hmin b pb hib (by omega) hpb
        exact rowPivot_some_before hpb (by omega)
    set M1 := swapRows M i k with hM1def
    have hsh1 : mShape n c M1 := mShape_swapRows hsh hi hkn
    have hM1len : M1.length = n := hsh1.1
    have hM1i : rowAt M1 i = rowAt M k := rowAt_swapRows_left M (by omega)
    have hM1k : rowAt M1 k = rowAt M i := rowAt_swapRows_right M (by omega)
    have hM1other : ∀ a, a ≠ i → a ≠ k → rowAt M1 a = rowAt M a :=
      fun a h1 h2 => rowAt_swapRows_other M h1 h2
    set r : MRow := rowScale (rowAt M k) (1 / entry M k p) with hrdef
    have hrlen : r.length = c := by
      rw [hrdef, length_rowScale, mShape_rowAt hsh hkn]
    set M2' := M1.set i r with hM2'def
    have hsh2' : mShape n c M2' := mShape_set hsh1 hrlen i
    have hM2'i : rowAt M2' i = r := rowAt_set_self _ _ _ (by omega)
    have hM2'ne : ∀ a, a ≠ i → rowAt M2' a = rowAt M1 a :=
      fun a h1 => rowAt_set_ne M1 (fun h2 => h1 h2.symm)
    set js := List.range' (i + 1) (M1.length - (i + 1)) with hjsdef
    have hjs_mem : ∀ a, a ∈ js ↔ i + 1 ≤ a ∧ a < n := by
      intro a
      rw [hjsdef, List.mem_range'_1]
      omega
    have hinjs : i ∉ js := fun h => by have := (hjs_mem i).1 h; omega
    have hnodup : js.Nodup := List.nodup_range' _ _
    set M2 := refElim i p js M2' with hM2def
    have hrows : ∀ a, rowAt M2 a =
        if a ∈ js then rowAdd (rowAt M2' a) (rowScale (rowNeg (rowAt M2' i)) (entry M2' a p))
        else rowAt M2' a :=
      refElim_rowAt js hinjs hnodup M2'
    have hstep : refStep M i = .ok M2 := by
      rw [refStep, hcp]
      simp only [rowDiv, if_neg hpv]
      show Except.ok (refElim i p (List.range' (i + 1) (M1.length - (i + 1)))
        (M1.set i (rowScale (rowAt M1 i) (1 / entry M k p)))) = Except.ok M2
      rw [hM1i]
    -- row-level description of M2
    have hrow2lt : ∀ a, a < i → rowAt M2 a = rowAt M a := by
      intro a ha
      rw [hrows a, if_neg (fun h => by have := (hjs_mem a).1 h; omega),
        hM2'ne a (by omega), hM1other a (by omega) (by omega)]
    have hrow2i : rowAt M2 i = r := by
      rw [hrows i, if_neg hinjs, hM2'i]
    have hrow2mid : ∀ a, i < a → a < n →
        rowAt M2 a = rowAdd (rowAt M1 a) (rowScale (rowNeg r) (entry M1 a p)) := by
      intro a h1 h2
      rw [hrows a, if_pos ((hjs_mem a).2 ⟨by omega, h2⟩), hM2'ne a (by omega),
        hM2'i, entry_congr (hM2'ne a (by omega))]
    have hsh2 : mShape n c M2 := by
      refine mShape_of_rowAt (by rw [hM2def, refElim_length, hsh2'.1]) ?_
      intro a ha
      rcases Nat.lt_or_ge a i with h1 | h1
      · rw [hrow2lt a h1]; exact mShape_rowAt hsh ha
      · rcases Nat.eq_or_lt_of_le h1 with h2 | h2
        · rw [← h2, hrow2i]; exact hrlen
        · rw [hrow2mid a h2 ha, length_rowAdd, mShape_rowAt hsh1 ha]
          rw [length_rowScale, length_rowNeg, hrlen, mShape_rowAt hsh1 ha]
    -- entries of the normalized pivot row
    have hEi : ∀ q, entry M2 i q = entry M k q * (1 / entry M k p) := by
      intro q
      rw [entry, hrow2i, hrdef, getD_rowScale]
      rfl
    have hEip : entry M2 i p = 1 := by
      rw [hEi p, mul_one_div, div_self hpv]
    have hEiq0 : ∀ q, q < p → entry M2 i q = 0 := by
      intro q hq
      rw [hEi q, hb_zero k hik hkn q hq, zero_mul]
    have hpiv2i : rowPivot (rowAt M2 i) = some p := by
      refine rowPivot_eq_some ?_ ?_ ?_
      · rw [hrow2i, hrlen]; exact hplt
      · show (rowAt M2 i).getD p 0 ≠ 0
        rw [show (rowAt M2 i).getD p 0 = entry M2 i p from rfl, hEip]
        norm_num
      · intro q hq
        show (rowAt M2 i).getD q 0 = 0
        rw [show (rowAt M2 i).getD q 0 = entry M2 i q from rfl]
        exact hEiq0 q hq
    -- entries of the eliminated rows
    have hM1rowlen : ∀ a, a < n → (rowAt M1 a).length = c :=
      fun a ha => mShape_rowAt hsh1 ha
    have hEmid : ∀ a, i < a → a < n → ∀ q,
        entry M2 a q = entry M1 a q + (-(r.getD q 0)) * entry M1 a p := by
      intro a h1 h2 q
      rw [entry, hrow2mid a h1 h2, getD_rowAdd _ _ (by
        rw [hM1rowlen a h2, length_rowScale, length_rowNeg, hrlen]),
        getD_rowScale, getD_rowNeg]
      rfl
    have hrq0 : ∀ q, q < p → r.getD q 0 = 0 := by
      intro q hq
      rw [hrdef, getD_rowScale,
        show (rowAt M k).getD q 0 = entry M k q from rfl,
        hb_zero k hik hkn q hq, zero_mul]
    have hrp1 : r.getD p 0 = 1 := by
      rw [hrdef, getD_rowScale, show (rowAt M k).getD p 0 = entry M k p from rfl,
        mul_one_div, div_self hpv]
    have hM1val : ∀ a, i ≤ a → a < n → ∀ q, q < p → entry M1 a q = 0 := by
      intro a h1 h2 q hq
      by_cases hak : a = k
      · subst hak
        rw [entry_congr hM1k]
        exact hb_zero i (le_refl i) hi q hq
      · by_cases hai : a = i
        · subst hai
          rw [entry_congr hM1i]
          exact hb_zero k hik hkn q hq
        · rw [entry_congr (hM1other a hai hak)]
          exact hb_zero a h1 h2 q hq
    have hbelow : ∀ a, i < a → a < n → ∀ q, q ≤ p → entry M2 a q = 0 := by
      intro a h1 h2 q hq
      rcases Nat.lt_or_ge q p with hq2 | hq2
      · rw [hEmid a h1 h2 q, hM1val a (by omega) h2 q hq2, hrq0 q hq2]
        ring
      · have hqp : q = p := by omega
        subst hqp
        rw [hEmid a h1 h2 q, hrp1]
        ring
    refine ⟨M2, hstep, hsh2, ?_, ?_⟩
    · -- zero-row clause
      intro a ha hnone b hab hb
      rcases Nat.lt_or_ge a i with ha2 | ha2
      · rw [hrow2lt a ha2] at hnone
        have hzall := hinv.1 a ha2 hnone k (by omega) (by omega)
        rw [hpvt] at hzall
        cases hzall
      · have ha3 : a = i := by omega
        subst ha3
        rw [hpiv2i] at hnone
        cases hnone
    · -- pivot clause
      intro a pa ha hsome
      rcases Nat.lt_or_ge a i with ha2 | ha2
      · rw [hrow2lt a ha2] at hsome
        obtain ⟨hold1, hold2⟩ := hinv.2 a pa ha2 hsome
        constructor
        · rw [entry_congr (hrow2lt a ha2)]
          exact hold1
        · intro b hab hb q hq
          have hbn : b < n := by rw [hsh2.1] at hb; exact hb
          rcases Nat.lt_or_ge b i with hb2 | hb2
          · rw [entry_congr (hrow2lt b hb2)]
            exact hold2 b hab (by omega) q hq
          · rcases Nat.eq_or_lt_of_le hb2 with hb3 | hb3
            · subst hb3
              rw [hEi q, hold2 k (by omega) (by omega) q hq, zero_mul]
            · have hrkq : r.getD q 0 = 0 := by
                rw [hrdef, getD_rowScale,
                  show (rowAt M k).getD q 0 = entry M k q from rfl,
                  hold2 k (by omega) (by omega) q hq, zero_mul]
              have hM1bq : entry M1 b q = 0 := by
                by_cases hbk : b = k
                · subst hbk
                  rw [entry_congr hM1k]
                  exact hold2 i (by omega) (by omega) q hq
                · by_cases hbi : b = i
                  · omega
                  · rw [entry_congr (hM1other b hbi hbk)]
                    exact hold2 b hab (by omega) q hq
              rw [hEmid b hb3 hbn q, hM1bq, hrkq]
              ring
      · have ha3 : a = i := by omega
        subst ha3
        rw [hpiv2i] at hsome
        have hpa : pa = p := by
          cases hsome
          rfl
        subst hpa
        refine ⟨hEip, ?_⟩
        intro b hab hb q hq
        have hbn : b < n := by rw [hsh2.1] at hb; exact hb
        exact hbelow b hab hbn q hq

lemma refLoop_inv {n c : ℕ} : ∀ (fuel i : ℕ) (M : MMat), fuel = n - i →
    mShape n c M → RefInv i M →
    ∃ M2, refLoop (List.range' i (n - i)) M = .ok M2 ∧ mShape n c M2 ∧
      RefInv n M2 := by
  intro fuel
  induction fuel with
  | zero =>
    intro i M hf hsh hinv
    have hni : n - i = 0 := by omega
    rw [hni]
    exact ⟨M, rfl, hsh, refInv_mono hinv (by omega)⟩
  | succ f ih =>
    intro i M hf hsh hinv
    have hi : i < n := by omega
    have hsplit : n - i = (n - (i + 1)) + 1 := by omega
    rw [hsplit]
    rw [List.range'_succ]
    obtain ⟨M1, hok, hsh1, hinv1⟩ := refStep_inv hsh hi hinv
    obtain ⟨M2, hok2, hsh2, hinv2⟩ := ih (i + 1) M1 (by omega) hsh1 hinv1
    refine ⟨M2, ?_, hsh2, hinv2⟩
    rw [refLoop, hok]
    exact hok2

lemma nodup_all_eq_length_le_one {l : List ℕ} (h : l.Nodup) (c : ℕ)
    (hc : ∀ x ∈ l, x = c) : l.length ≤ 1 := by
  match l with
  | [] => simp
  | [a] => simp
  | a :: b :: t =>
    exfalso
    have ha := hc a (by simp)
    have hb := hc b (by simp)
    rw [List.nodup_cons] at h
    exact h.1 (by simp [ha, hb])

lemma mkMatrix_ok {A : MMat} (hv : validMat A) : mkMatrix A = .ok A := by
  obtain ⟨hpos, hall⟩ := hv
  have hded : ((A.map List.length).dedup).length ≤ 1 := by
    refine nodup_all_eq_length_le_one (List.nodup_dedup _) (rowAt A 0).length ?_
    intro x hx
    rw [List.mem_dedup, List.mem_map] at hx
    obtain ⟨row, hrow, rfl⟩ := hx
    exact hall row hrow
  rw [mkMatrix, if_neg (by omega), if_neg (by omega)]

lemma refE_ok {A : MMat} (hv : validMat A) :
    ∃ B, refE A = .ok B ∧ mShape A.length (rowAt A 0).length B ∧
      RefInv A.length B := by
  have hsh : mShape A.length (rowAt A 0).length A := ⟨rfl, hv.2⟩
  obtain ⟨B, hok, hshB, hinvB⟩ :=
    refLoop_inv (n := A.length) (c := (rowAt A 0).length) A.length 0 A
      (by omega) hsh (refInv_zero A)
  refine ⟨B, ?_, hshB, hinvB⟩
  rw [refE, deepcopyM, mkMatrix_ok hv]
  show refLoop (List.range A.length) A = Except.ok B
  rw [List.range_eq_range']
  have : A.length - 0 = A.length := by omega
  rw [this] at hok
  exact hok

/-! ## The REF postcondition -/

lemma rowPivot_none_of_out_of_range {M : MMat} {i : ℕ} (h : M.length ≤ i) :
    rowPivot (rowAt M i) = none := by
  rw [rowAt_out_of_range h]
  rfl

lemma isREF_of_refInv {n c : ℕ} {M : MMat} (hsh : mShape n c M)
    (hinv : RefInv n M) : IsREF M := by
  have hnM : M.length = n := hsh.1
  refine ⟨?_, ?_, ?_⟩
  · intro i j pi pj hij hpi hpj
    have hjn : j < n := by
      by_contra hj
      rw [rowPivot_none_of_out_of_range (by omega)] at hpj
      cases hpj
    have hin : i < n := by omega
    obtain ⟨h1, h2⟩ := hinv.2 i pi hin hpi
    by_contra hle
    have hpj_lt : pj < pi := by omega
    have := h2 j hij (by omega) pj (by omega)
    have hnz := rowPivot_some_nonzero hpj
    exact hnz this
  · intro i j hij hjM hnone
    have hin : i < n := by omega
    exact hinv.1 i hin hnone j (by omega) hjM
  · intro i p hp
    have hin : i < n := by
      by_contra hi
      rw [rowPivot_none_of_out_of_range (by omega)] at hp
      cases hp
    exact (hinv.2 i p hin hp).1

lemma validMat_of_mShape {n c : ℕ} {M : MMat} (hsh : mShape n c M)
    (hn : 0 < n) : validMat M := by
  have hl := hsh.1
  refine ⟨by omega, ?_⟩
  intro r hr
  rw [mShape_rowAt hsh (by omega)]
  exact hsh.2 r hr

/-! ## The upward-elimination loop invariant -/

/-- Invariant of `rref`'s upward loop before processing source row `i`:
for every already-processed pivot row, its pivot column is zero in every row
above it. -/
def UpInv (i : ℕ) (M : MMat) : Prop :=
  ∀ a, a < i → ∀ p, rowPivot (rowAt M a) = some p → ∀ j, j < a → entry M j p = 0

lemma upInv_one (M : MMat) : UpInv 1 M := by
  intro a ha p hp j hj
  omega

lemma upInv_mono {i j : ℕ} {M : MMat} (h : UpInv i M) (hji : j ≤ i) :
    UpInv j M :=
  fun a ha => h a (by omega)

lemma rrefStep_inv {n c i : ℕ} {M : MMat} (hsh : mShape n c M) (hi : i < n)
    (hinv : RefInv n M) (hup : UpInv i M) :
    ∃ M2, rrefStep M i = .ok M2 ∧ mShape n c M2 ∧ RefInv n M2 ∧
      UpInv (i + 1) M2 := by
  have hnM : M.length = n := hsh.1
  cases hpw : rowPivot (rowAt M i) with
  | none =>
    refine ⟨M, by rw [rrefStep, hpw], hsh, hinv, ?_⟩
    intro a ha p hp j hj
    rcases Nat.lt_or_ge a i with ha2 | ha2
    · exact hup a ha2 p hp j hj
    · have ha3 : a = i := by omega
      subst ha3
      rw [hpw] at hp
      cases hp
  | some p =>
    have hpv : entry M i p ≠ 0 := rowPivot_some_nonzero hpw
    have hplt : p < c := by
      have := rowPivot_some_lt hpw
      rwa [mShape_rowAt hsh hi] at this
    have hinjs : i ∉ List.range i := by simp
    have hnodup : (List.range i).Nodup := List.nodup_range i
    obtain ⟨M2, hok, hlen, hrows⟩ :=
      rrefElim_rowAt hpv (List.range i) hinjs hnodup M
    have hstep : rrefStep M i = .ok M2 := by
      rw [rrefStep, hpw]
      exact hok
    have hsame : ∀ a, i ≤ a → rowAt M2 a = rowAt M a := by
      intro a ha
      rw [hrows a, if_neg (by simp; omega)]
    have hE : ∀ a, a < i → ∀ q, entry M2 a q =
        entry M a q + ((-(entry M i q)) * entry M a p) * (1 / entry M i p) := by
      intro a ha q
      rw [entry, hrows a, if_pos (by simpa using ha),
        getD_rowAdd _ _ (by
          rw [mShape_rowAt hsh (by omega), length_rowScale, length_rowScale,
            length_rowNeg, mShape_rowAt hsh hi]),
        getD_rowScale, getD_rowScale, getD_rowNeg]
      rfl
    -- every row above i is a pivot row with pivot column strictly left of p,
    -- and row i vanishes on all columns up to that pivot
    have hF1 : ∀ j, j < i → ∃ pj, rowPivot (rowAt M j) = some pj ∧ pj < p ∧
        (∀ q, q ≤ pj → entry M i q = 0) := by
      intro j hj
      cases hpj : rowPivot (rowAt M j) with
      | none =>
        exfalso
        have := hinv.1 j (by omega) hpj i (by omega) (by omega)
        rw [hpw] at this
        cases this
      | some pj =>
        obtain ⟨h1, h2⟩ := hinv.2 j pj (by omega) hpj
        have hzq : ∀ q, q ≤ pj → entry M i q = 0 :=
          fun q hq => h2 i (by omega) (by omega) q hq
        refine ⟨pj, rfl, ?_, hzq⟩
        by_contra hle
        exact hpv (hzq p (by omega))
    have hsh2 : mShape n c M2 := by
      refine mShape_of_rowAt (by rw [hlen, hnM]) ?_
      intro a ha
      rcases Nat.lt_or_ge a i with h1 | h1
      · rw [hrows a, if_pos (by simpa using h1), length_rowAdd,
          mShape_rowAt hsh ha]
        rw [mShape_rowAt hsh ha, length_rowScale, length_rowScale,
          length_rowNeg, mShape_rowAt hsh hi]
      · rw [hsame a h1]
        exact mShape_rowAt hsh ha
    have hpivsame : ∀ a, rowPivot (rowAt M2 a) = rowPivot (rowAt M a) := by
      intro a
      rcases Nat.lt_or_ge a i with ha | ha
      · obtain ⟨pa, hpa, hpap, hiz⟩ := hF1 a ha
        rw [hpa]
        refine rowPivot_eq_some ?_ ?_ ?_
        · rw [mShape_rowAt hsh2 (by omega)]
          have := rowPivot_some_lt hpa
          rwa [mShape_rowAt hsh (by omega)] at this
        · show (rowAt M2 a).getD pa 0 ≠ 0
          rw [show (rowAt M2 a).getD pa 0 = entry M2 a pa from rfl,
            hE a ha pa, hiz pa (le_refl pa)]
          have hnz : entry M a pa ≠ 0 := rowPivot_some_nonzero hpa
          intro hcontra
          apply hnz
          linear_combination hcontra
        · intro q hq
          show (rowAt M2 a).getD q 0 = 0
          rw [show (rowAt M2 a).getD q 0 = entry M2 a q from rfl, hE a ha q,
            hiz q (by omega),
            show entry M a q = 0 from rowPivot_some_before hpa hq]
          ring
      · rw [hsame a ha]
    refine ⟨M2, hstep, hsh2, ⟨?_, ?_⟩, ?_⟩
    · -- zero-row clause of RefInv
      intro a ha hnone b hab hb
      rw [hpivsame] at hnone ⊢
      exact hinv.1 a ha hnone b hab (by rw [hsh2.1] at hb; omega)
    · -- pivot clause of RefInv
      intro a pa ha hsome
      rw [hpivsame] at hsome
      obtain ⟨h1, h2⟩ := hinv.2 a pa ha hsome
      constructor
      · rcases Nat.lt_or_ge a i with ha2 | ha2
        · obtain ⟨pa2, hpa2, _, hiz⟩ := hF1 a ha2
          rw [hpa2] at hsome
          cases hsome
          rw [hE a ha2 pa, hiz pa (le_refl pa)]
          rw [h1]
          ring
        · rw [entry_congr (hsame a ha2)]
          exact h1
      · intro b hab hb q hq
        have hbn : b < n := by rw [hsh2.1] at hb; exact hb
        rcases Nat.lt_or_ge b i with hb2 | hb2
        · rw [hE b hb2 q, h2 b hab (by omega) q hq,
            h2 i (by omega) (by omega) q hq]
          ring
        · rw [entry_congr (hsame b hb2)]
          exact h2 b hab (by omega) q hq
    · -- the upward clause
      intro a ha pa hpa j hj
      rw [hpivsame] at hpa
      rcases Nat.lt_or_ge a i with ha2 | ha2
      · -- already-processed row: pivot column stays clean above
        obtain ⟨pa2, hpa2, hpap, hiz⟩ := hF1 a ha2
        rw [hpa2] at hpa
        simp only [Option.some.injEq] at hpa
        subst hpa
        rw [hE j (by omega) pa2, hup a ha2 pa2 hpa2 j hj,
          hiz pa2 (le_refl pa2)]
        ring
      · -- the newly processed row i
        have ha3 : a = i := by omega
        subst ha3
        rw [hpw] at hpa
        simp only [Option.some.injEq] at hpa
        subst hpa
        rw [hE j (by omega) p]
        field_simp
        ring

lemma rrefLoop_inv {n c : ℕ} : ∀ (fuel i : ℕ) (M : MMat), fuel = n - i →
    mShape n c M → RefInv n M → UpInv i M →
    ∃ M2, rrefLoop (List.range' i (n - i)) M = .ok M2 ∧ mShape n c M2 ∧
      RefInv n M2 ∧ UpInv n M2 := by
  intro fuel
  induction fuel with
  | zero =>
    intro i M hf hsh hinv hup
    have hni : n - i = 0 := by omega
    rw [hni]
    exact ⟨M, rfl, hsh, hinv, upInv_mono hup (by omega)⟩
  | succ f ih =>
    intro i M hf hsh hinv hup
    have hi : i < n := by omega
    have hsplit : n - i = (n - (i + 1)) + 1 := by omega
    rw [hsplit, List.range'_succ]
    obtain ⟨M1, hok, hsh1, hinv1, hup1⟩ := rrefStep_inv hsh hi hinv hup
    obtain ⟨M2, hok2, hsh2, hinv2, hup2⟩ := ih (i + 1) M1 (by omega) hsh1 hinv1 hup1
    refine ⟨M2, ?_, hsh2, hinv2, hup2⟩
    rw [rrefLoop, hok]
    exact hok2

lemma rrefE_ok {A : MMat} (hv : validMat A) :
    ∃ C, rrefE A = .ok C ∧ mShape A.length (rowAt A 0).length C ∧
      RefInv A.length C ∧ UpInv A.length C := by
  obtain ⟨B, hok, hshB, hinvB⟩ := refE_ok hv
  have hposn : 0 < A.length := hv.1
  obtain ⟨C, hok2, hshC, hinvC, hupC⟩ :=
    rrefLoop_inv (n := A.length) (c := (rowAt A 0).length) (A.length - 1) 1 B
      rfl hshB hinvB (upInv_one B)
  refine ⟨C, ?_, hshC, hinvC, hupC⟩
  rw [rrefE, hok]
  show rrefLoop (List.range' 1 (B.length - 1)) B = Except.ok C
  rw [hshB.1]
  exact hok2

/-! ## The RREF postcondition -/

lemma isRREF_of_inv {n c : ℕ} {M : MMat} (hsh : mShape n c M)
    (hinv : RefInv n M) (hup : UpInv n M) : IsRREF M := by
  have hnM : M.length = n := hsh.1
  refine ⟨isREF_of_refInv hsh hinv, ?_⟩
  intro i p hp j hjM hji
  have hin : i < n := by
    by_contra hi
    rw [rowPivot_none_of_out_of_range (by omega)] at hp
    cases hp
  have hjn : j < n := by rw [hsh.1] at hjM; exact hjM
  rcases Nat.lt_or_ge j i with hj2 | hj2
  · exact hup i hin p hp j hj2
  · have hj3 : i < j := by omega
    exact (hinv.2 i p hin hp).2 j hj3 (by omega) p (le_refl p)

/-! ## Fixed points of the elimination passes -/

lemma rowAdd_right_zero {r x : MRow} (hlen : x.length = r.length)
    (hx : ∀ q, x.getD q 0 = 0) : rowAdd r x = r := by
  refine List.ext_getElem (by simp [rowAdd, hlen]) ?_
  intro q h1 h2
  have hq : q < x.length := by simp [rowAdd] at h1; omega
  have : x.getD q 0 = x[q] := List.getD_eq_getElem _ _ hq
  have hx0 : x[q] = 0 := by rw [← this, hx q]
  simp [rowAdd, hx0]

lemma rowScale_one (r : MRow) : rowScale r 1 = r := by
  simp [rowScale]

lemma set_rowAt_self {M : MMat} {i : ℕ} (h : i < M.length) :
    M.set i (rowAt M i) = M := by
  refine List.ext_getElem (by simp) ?_
  intro q h1 h2
  by_cases hq : i = q
  · subst hq
    rw [List.getElem_set_self, rowAt_eq_getElem h]
  · rw [List.getElem_set_ne hq]

lemma swapRows_self (M : MMat) (i : ℕ) : swapRows M i i = M := by
  rcases lt_or_ge i M.length with h | h
  · rw [swapRows, set_rowAt_self h, set_rowAt_self h]
  · rw [swapRows, List.set_eq_of_length_le h, List.set_eq_of_length_le h]

lemma refElim_fix {i p : ℕ} : ∀ (js : List ℕ) (M : MMat),
    (∀ j ∈ js, entry M j p = 0 ∧ j < M.length ∧
      (rowAt M i).length = (rowAt M j).length) →
    refElim i p js M = M := by
  intro js
  induction js with
  | nil => intro M _; rfl
  | cons j js ih =>
    intro M h
    obtain ⟨hz, hjlen, hlen⟩ := h j (List.mem_cons_self _ _)
    rw [refElim, hz]
    have hset : M.set j (rowAdd (rowAt M j) (rowScale (rowNeg (rowAt M i)) 0)) = M := by
      rw [rowAdd_right_zero (by rw [length_rowScale, length_rowNeg]; exact hlen)
        (fun q => by rw [getD_rowScale, mul_zero])]
      exact set_rowAt_self hjlen
    rw [hset]
    exact ih M (fun a ha => h a (List.mem_cons_of_mem _ ha))

lemma rrefElim_fix {i p : ℕ} {pv : ℚ} (hpv : pv ≠ 0) : ∀ (js : List ℕ) (M : MMat),
    (∀ j ∈ js, entry M j p = 0 ∧ j < M.length ∧
      (rowAt M i).length = (rowAt M j).length) →
    rrefElim i p pv js M = .ok M := by
  intro js
  induction js with
  | nil => intro M _; rfl
  | cons j js ih =>
    intro M h
    obtain ⟨hz, hjlen, hlen⟩ := h j (List.mem_cons_self _ _)
    rw [rrefElim, rowDiv, if_neg hpv, hz]
    have hset : M.set j (rowAdd (rowAt M j)
        (rowScale (rowScale (rowNeg (rowAt M i)) 0) (1 / pv))) = M := by
      rw [rowAdd_right_zero
        (by rw [length_rowScale, length_rowScale, length_rowNeg]; exact hlen)
        (fun q => by rw [getD_rowScale, getD_rowScale, mul_zero, zero_mul])]
      exact set_rowAt_self hjlen
    show rrefElim i p pv js (M.set j (rowAdd (rowAt M j)
      (rowScale (rowScale (rowNeg (rowAt M i)) 0) (1 / pv)))) = Except.ok M
    rw [hset]
    exact ih M (fun a ha => h a (List.mem_cons_of_mem _ ha))

lemma refStep_eq_some {M : MMat} {i p k : ℕ}
    (hcp : choosePivot M i = some (p, k)) (hpv : entry M k p ≠ 0) :
    refStep M i = .ok (refElim i p
      (List.range' (i + 1) ((swapRows M i k).length - (i + 1)))
      ((swapRows M i k).set i
        (rowScale (rowAt (swapRows M i k) i) (1 / entry M k p)))) := by
  rw [refStep, hcp]
  simp only [rowDiv, if_neg hpv]

lemma refStep_fix {n c i : ℕ} {M : MMat} (hsh : mShape n c M) (hi : i < n)
    (hinv : RefInv n M) : refStep M i = .ok M := by
  have hnM : M.length = n := hsh.1
  cases hpw : rowPivot (rowAt M i) with
  | none =>
    have hcp : choosePivot M i = none := by
      rw [choosePivot_none_iff]
      intro k hik hk
      exact hinv.1 i (by omega) hpw k hik hk
    rw [refStep, hcp]
  | some p =>
    obtain ⟨h1, h2⟩ := hinv.2 i p (by omega) hpw
    have hcp : choosePivot M i = some (p, i) := by
      cases hcp2 : choosePivot M i with
      | none =>
        exfalso
        rw [choosePivot_none_iff.1 hcp2 i (le_refl i) (by omega)] at hpw
        cases hpw
      | some qk =>
        obtain ⟨q, k⟩ := qk
        obtain ⟨hik, hkM, hpvt, hmin⟩ := choosePivot_spec hcp2
        rcases Nat.eq_or_lt_of_le hik with hki | hki
        · subst hki
          rw [hpw] at hpvt
          cases hpvt
          rfl
        · exfalso
          have hqp : q ≤ p := hmin i p (le_refl i) (by omega) hpw
          have := h2 k hki hkM q hqp
          exact rowPivot_some_nonzero hpvt this
    have hpv1 : entry M i p ≠ 0 := by rw [h1]; norm_num
    rw [refStep_eq_some hcp hpv1, swapRows_self]
    have hsc : rowScale (rowAt M i) (1 / entry M i p) = rowAt M i := by
      rw [h1]
      norm_num [rowScale_one]
    rw [hsc, set_rowAt_self (show i < M.length by omega)]
    have hfix : refElim i p (List.range' (i + 1) (M.length - (i + 1))) M = M := by
      refine refElim_fix _ M ?_
      intro j hj
      have hmem := List.mem_range'_1.1 hj
      refine ⟨h2 j (by omega) (by omega) p (le_refl p), by omega, ?_⟩
      rw [mShape_rowAt hsh hi, mShape_rowAt hsh (by omega)]
    rw [hfix]

lemma rrefStep_fix {n c i : ℕ} {M : MMat} (hsh : mShape n c M) (hi : i < n)
    (hup : UpInv n M) : rrefStep M i = .ok M := by
  have hnM : M.length = n := hsh.1
  cases hpw : rowPivot (rowAt M i) with
  | none => rw [rrefStep, hpw]
  | some p =>
    have hpv : entry M i p ≠ 0 := rowPivot_some_nonzero hpw
    rw [rrefStep, hpw]
    refine rrefElim_fix hpv _ M ?_
    intro j hj
    have hji : j < i := List.mem_range.1 hj
    refine ⟨hup i (by omega) p hpw j hji, by omega, ?_⟩
    rw [mShape_rowAt hsh hi, mShape_rowAt hsh (by omega)]

lemma refLoop_fix {n c : ℕ} {M : MMat} (hsh : mShape n c M)
    (hinv : RefInv n M) : ∀ js : List ℕ, (∀ j ∈ js, j < n) →
    refLoop js M = .ok M := by
  intro js
  induction js with
  | nil => intro _; rfl
  | cons j js ih =>
    intro h
    rw [refLoop, refStep_fix hsh (h j (List.mem_cons_self _ _)) hinv]
    exact ih (fun a ha => h a (List.mem_cons_of_mem _ ha))

lemma rrefLoop_fix {n c : ℕ} {M : MMat} (hsh : mShape n c M)
    (hup : UpInv n M) : ∀ js : List ℕ, (∀ j ∈ js, j < n) →
    rrefLoop js M = .ok M := by
  intro js
  induction js with
  | nil => intro _; rfl
  | cons j js ih =>
    intro h
    rw [rrefLoop, rrefStep_fix hsh (h j (List.mem_cons_self _ _)) hup]
    exact ih (fun a ha => h a (List.mem_cons_of_mem _ ha))

lemma rrefE_fix {n c : ℕ} {M : MMat} (hsh : mShape n c M) (hn : 0 < n)
    (hinv : RefInv n M) (hup : UpInv n M) : rrefE M = .ok M := by
  have hnM : M.length = n := hsh.1
  have hv : validMat M := validMat_of_mShape hsh hn
  have hreffix : refE M = .ok M := by
    rw [refE, deepcopyM, mkMatrix_ok hv]
    show refLoop (List.range M.length) M = Except.ok M
    refine refLoop_fix hsh hinv _ ?_
    intro j hj
    rw [List.mem_range] at hj
    omega
  rw [rrefE, hreffix]
  show rrefLoop (List.range' 1 (M.length - 1)) M = Except.ok M
  refine rrefLoop_fix hsh hup _ ?_
  intro j hj
  have := List.mem_range'_1.1 hj
  omega

/-! ## Determinant: step characterization -/

lemma rowIsZero_getD {r : MRow} (h : rowIsZero r) (q : ℕ) : r.getD q 0 = 0 := by
  rcases lt_or_ge q r.length with h1 | h1
  · rw [List.getD_eq_getElem _ _ h1]
    exact h _ (List.getElem_mem h1)
  · exact List.getD_eq_default _ _ h1

lemma rowIsZero_of_getD {r : MRow} (h : ∀ q, q < r.length → r.getD q 0 = 0) :
    rowIsZero r := by
  intro x hx
  obtain ⟨q, hq, rfl⟩ := List.mem_iff_getElem.1 hx
  rw [← List.getD_eq_getElem r 0 hq]
  exact h q hq

lemma detStep_eq_none {M : MMat} {neg : ℚ} {i : ℕ}
    (hfp : findPivotDet M i = none) : detStep (M, neg) i = .ok (M, neg) := by
  rw [detStep]
  simp only [hfp]

lemma detStep_eq_some {M : MMat} {neg : ℚ} {i k : ℕ} {M2 : MMat}
    (hfp : findPivotDet M i = some k)
    (helim : detElim i (entry (if k = i then M else swapRows M i k) i i)
      (List.range' (i + 1) ((if k = i then M else swapRows M i k).length - (i + 1)))
      (if k = i then M else swapRows M i k) = .ok M2) :
    detStep (M, neg) i = .ok (M2, if k = i then neg else -neg) := by
  rw [detStep]
  simp only [hfp]
  rw [helim]

lemma detStep_cases {n c i : ℕ} {M : MMat} {neg : ℚ} (hsh : mShape n c M)
    (hi : i < n) :
    (findPivotDet M i = none ∧ detStep (M, neg) i = .ok (M, neg)) ∨
    (∃ k M1 M2 neg2, findPivotDet M i = some k ∧ i ≤ k ∧ k < n ∧
      M1 = (if k = i then M else swapRows M i k) ∧ mShape n c M1 ∧
      entry M1 i i ≠ 0 ∧
      detStep (M, neg) i = .ok (M2, neg2) ∧ mShape n c M2 ∧
      (∀ a, ¬(i < a ∧ a < n) → rowAt M2 a = rowAt M1 a) ∧
      (∀ a, i < a → a < n → rowAt M2 a =
        rowAdd (rowAt M1 a)
          (rowScale (rowScale (rowNeg (rowAt M1 i)) (entry M1 a i))
            (1 / entry M1 i i)))) := by
  have hnM : M.length = n := hsh.1
  cases hfp : findPivotDet M i with
  | none => exact Or.inl ⟨rfl, detStep_eq_none hfp⟩
  | some k =>
    obtain ⟨hik, hkM, hknz⟩ := findPivotDet_some hfp
    have hkn : k < n := by omega
    set M1 : MMat := if k = i then M else swapRows M i k with hM1
    have hsh1 : mShape n c M1 := by
      rw [hM1]
      by_cases hki : k = i
      · rw [if_pos hki]; exact hsh
      · rw [if_neg hki]; exact mShape_swapRows hsh hi hkn
    have hM1len : M1.length = n := hsh1.1
    have hM1i : rowAt M1 i = rowAt M k := by
      rw [hM1]
      by_cases hki : k = i
      · rw [if_pos hki, hki]
      · rw [if_neg hki]
        exact rowAt_swapRows_left M (by omega)
    have hpv : entry M1 i i ≠ 0 := by
      rw [entry_congr hM1i]
      exact hknz
    have hinjs : i ∉ List.range' (i + 1) (M1.length - (i + 1)) := by
      intro h
      have := List.mem_range'_1.1 h
      omega
    obtain ⟨M2, helim, hlen2, hrows2⟩ := detElim_rowAt hpv
      (List.range' (i + 1) (M1.length - (i + 1))) hinjs (List.nodup_range' _ _) M1
    have hjs : ∀ a, a ∈ List.range' (i + 1) (M1.length - (i + 1)) ↔
        i + 1 ≤ a ∧ a < n := by
      intro a
      rw [List.mem_range'_1]
      omega
    refine Or.inr ⟨k, M1, M2, if k = i then neg else -neg, rfl, hik, hkn, hM1,
      hsh1, hpv, detStep_eq_some hfp (by rw [← hM1]; exact helim), ?_, ?_, ?_⟩
    · refine mShape_of_rowAt (by omega) ?_
      intro a ha
      rw [hrows2 a]
      by_cases hmem : a ∈ List.range' (i + 1) (M1.length - (i + 1))
      · rw [if_pos hmem, length_rowAdd, mShape_rowAt hsh1 ha]
        rw [mShape_rowAt hsh1 ha, length_rowScale, length_rowScale,
          length_rowNeg, mShape_rowAt hsh1 hi]
      · rw [if_neg hmem]
        exact mShape_rowAt hsh1 ha
    · intro a ha
      rw [hrows2 a, if_neg (fun h => ha (by have := (hjs a).1 h; omega))]
    · intro a h1 h2
      rw [hrows2 a, if_pos ((hjs a).2 ⟨by omega, h2⟩)]

/-! ## Determinant: zero certificates -/

/-- Position map of the conditional row swap performed by `det` at step
`i` (rows `i` and `k` exchanged, everything else fixed). -/
def swapIdx (i k x : ℕ) : ℕ := if x = i then k else if x = k then i else x

lemma swapIdx_self (i x : ℕ) : swapIdx i i x = x := by
  unfold swapIdx
  split_ifs <;> omega

lemma swapIdx_bounds {i k x n : ℕ} (hik : i ≤ k) (hkn : k < n) (hx1 : i ≤ x)
    (hx2 : x < n) : i ≤ swapIdx i k x ∧ swapIdx i k x < n := by
  unfold swapIdx
  split_ifs <;> omega

lemma swapIdx_ne {i k x y : ℕ} (h : x ≠ y) : swapIdx i k x ≠ swapIdx i k y := by
  unfold swapIdx
  split_ifs <;> omega

lemma swapIdx_small {i k x : ℕ} (hx : x < i) (hik : i ≤ k) :
    swapIdx i k x = x := by
  unfold swapIdx
  split_ifs <;> omega

lemma rowAt_swapRows_swapIdx {M : MMat} {i k : ℕ} (hi : i < M.length)
    (hk : k < M.length) (x : ℕ) :
    rowAt (swapRows M i k) (swapIdx i k x) = rowAt M x := by
  unfold swapIdx
  by_cases h1 : x = i
  · rw [if_pos h1, h1]
    exact rowAt_swapRows_right M hk
  · by_cases h2 : x = k
    · rw [if_neg h1, if_pos h2, h2]
      exact rowAt_swapRows_left M hi
    · rw [if_neg h1, if_neg h2]
      exact rowAt_swapRows_other M h1 h2

/-- A certificate that the determinant run must produce zero: two equal rows
still inside the unprocessed region, or an all-zero row anywhere, or an
already-frozen zero diagonal entry. -/
def DetZeroInv (i : ℕ) (M : MMat) : Prop :=
  (∃ a b, i ≤ a ∧ a < b ∧ b < M.length ∧ rowAt M a = rowAt M b)
  ∨ (∃ z, z < M.length ∧ rowIsZero (rowAt M z))
  ∨ (∃ d, d < i ∧ entry M d d = 0)

lemma detStep_zeroInv {n c i : ℕ} {M : MMat} {neg : ℚ} (hsh : mShape n c M)
    (hi : i < n) :
    ∃ M2 neg2, detStep (M, neg) i = .ok (M2, neg2) ∧ mShape n c M2 ∧
      (DetZeroInv i M → DetZeroInv (i + 1) M2) := by
  have hnM : M.length = n := hsh.1
  rcases @detStep_cases n c i M neg hsh hi with ⟨hfp, hstep⟩ |
    ⟨k, M1, M2, neg2, hfp, hik, hkn, hM1, hsh1, hpv, hstep, hsh2, hout, hin⟩
  · refine ⟨M, neg, hstep, hsh, ?_⟩
    intro _
    refine Or.inr (Or.inr ⟨i, by omega, ?_⟩)
    exact findPivotDet_none hfp i (le_refl i) (by omega)
  · have hM2len : M2.length = n := hsh2.1
    have hM1len : M1.length = n := hsh1.1
    refine ⟨M2, neg2, hstep, hsh2, ?_⟩
    intro hD
    have hsig1 : ∀ x, rowAt M1 (swapIdx i k x) = rowAt M x := by
      intro x
      by_cases hki : k = i
      · rw [hM1, if_pos hki, hki, swapIdx_self]
      · rw [hM1, if_neg hki]
        exact rowAt_swapRows_swapIdx (by omega) (by omega) x
    have hsig2 : ∀ x, i ≤ x → x < n → i ≤ swapIdx i k x ∧ swapIdx i k x < n :=
      fun x h1 h2 => swapIdx_bounds hik hkn h1 h2
    have hsig_ne : ∀ x y, x ≠ y → swapIdx i k x ≠ swapIdx i k y :=
      fun x y h => swapIdx_ne h
    have hsmall : ∀ x, x < i → rowAt M1 x = rowAt M x := by
      intro x hx
      rw [← swapIdx_small hx hik, hsig1, swapIdx_small hx hik]
    -- a zero row cannot sit at the pivot position
    have hnotpivot : ∀ z, rowIsZero (rowAt M1 z) → z ≠ i := by
      intro z hz hzi
      rw [hzi] at hz
      exact hpv (rowIsZero_getD hz i)
    rcases hD with ⟨a, b, hia, hab, hbM, heq⟩ | ⟨z, hzM, hz2⟩ | ⟨d, hd, hd2⟩
    · -- two equal rows in the active region
      have hbn : b < n := by omega
      have han : a < n := by omega
      obtain ⟨hia1, ha1n⟩ := hsig2 a (by omega) han
      obtain ⟨hib1, hb1n⟩ := hsig2 b (by omega) hbn
      have hne : swapIdx i k a ≠ swapIdx i k b := hsig_ne a b (by omega)
      have heq1 : rowAt M1 (swapIdx i k a) = rowAt M1 (swapIdx i k b) := by
        rw [hsig1, hsig1, heq]
      by_cases hai : swapIdx i k a = i
      · -- the duplicate pair includes the pivot row: the other copy zeroes out
        have hbne : swapIdx i k b ≠ i := fun h => hne (by rw [hai, h])
        have hbgt : i < swapIdx i k b := by omega
        refine Or.inr (Or.inl ⟨swapIdx i k b, by omega, ?_⟩)
        rw [hin (swapIdx i k b) hbgt hb1n]
        have hbi : rowAt M1 (swapIdx i k b) = rowAt M1 i := by rw [← heq1, hai]
        rw [entry_congr hbi]
        refine rowIsZero_of_getD ?_
        intro q hq
        rw [getD_rowAdd _ _ (by
          rw [mShape_rowAt hsh1 hb1n, length_rowScale, length_rowScale,
            length_rowNeg, mShape_rowAt hsh1 (by omega)]),
          getD_rowScale, getD_rowScale, getD_rowNeg, hbi]
        show entry M1 i q + -(entry M1 i q) * entry M1 i i * (1 / entry M1 i i) = 0
        field_simp
      · by_cases hbi : swapIdx i k b = i
        · have hane : swapIdx i k a ≠ i := fun h => hne (by rw [h, hbi])
          have hagt : i < swapIdx i k a := by omega
          refine Or.inr (Or.inl ⟨swapIdx i k a, by omega, ?_⟩)
          rw [hin (swapIdx i k a) hagt ha1n]
          have hai2 : rowAt M1 (swapIdx i k a) = rowAt M1 i := by rw [heq1, hbi]
          rw [entry_congr hai2]
          refine rowIsZero_of_getD ?_
          intro q hq
          rw [getD_rowAdd _ _ (by
            rw [mShape_rowAt hsh1 ha1n, length_rowScale, length_rowScale,
              length_rowNeg, mShape_rowAt hsh1 (by omega)]),
            getD_rowScale, getD_rowScale, getD_rowNeg, hai2]
          show entry M1 i q + -(entry M1 i q) * entry M1 i i * (1 / entry M1 i i) = 0
          field_simp
        · -- both copies strictly below the pivot row: they stay equal
          have hagt : i < swapIdx i k a := by omega
          have hbgt : i < swapIdx i k b := by omega
          have heq2 : rowAt M2 (swapIdx i k a) = rowAt M2 (swapIdx i k b) := by
            rw [hin (swapIdx i k a) hagt ha1n, hin (swapIdx i k b) hbgt hb1n, heq1,
              entry_congr heq1]
          rcases Nat.lt_or_ge (swapIdx i k a) (swapIdx i k b) with hlt | hge
          · exact Or.inl ⟨swapIdx i k a, swapIdx i k b, by omega, hlt, by omega, heq2⟩
          · have hlt2 : swapIdx i k b < swapIdx i k a := by omega
            exact Or.inl ⟨swapIdx i k b, swapIdx i k a, by omega, hlt2, by omega, heq2.symm⟩
    · -- an all-zero row
      have hzn : z < n := by omega
      rcases Nat.lt_or_ge z i with hzi | hzi
      · refine Or.inr (Or.inl ⟨z, by omega, ?_⟩)
        rw [hout z (by omega), hsmall z hzi]
        exact hz2
      · obtain ⟨hiz1, hz1n⟩ := hsig2 z hzi hzn
        have hz1zero : rowIsZero (rowAt M1 (swapIdx i k z)) := by rw [hsig1]; exact hz2
        have hz1ne : swapIdx i k z ≠ i := hnotpivot (swapIdx i k z) hz1zero
        have hzgt : i < swapIdx i k z := by omega
        refine Or.inr (Or.inl ⟨swapIdx i k z, by omega, ?_⟩)
        rw [hin (swapIdx i k z) hzgt hz1n]
        refine rowIsZero_of_getD ?_
        intro q hq
        rw [getD_rowAdd _ _ (by
          rw [mShape_rowAt hsh1 hz1n, length_rowScale, length_rowScale,
            length_rowNeg, mShape_rowAt hsh1 (by omega)]),
          getD_rowScale, getD_rowScale, getD_rowNeg]
        rw [rowIsZero_getD hz1zero q,
          show entry M1 (swapIdx i k z) i = 0 from rowIsZero_getD hz1zero i]
        ring
    · -- a frozen zero diagonal entry
      refine Or.inr (Or.inr ⟨d, by omega, ?_⟩)
      rw [entry_congr (by rw [hout d (by omega), hsmall d hd] :
        rowAt M2 d = rowAt M d)]
      exact hd2

lemma detLoop_inv {n c : ℕ} : ∀ (fuel i : ℕ) (M : MMat) (neg : ℚ),
    fuel = n - i → i ≤ n → mShape n c M →
    ∃ M2 neg2, detLoop (List.range' i (n - i)) (M, neg) = .ok (M2, neg2) ∧
      mShape n c M2 ∧ (DetZeroInv i M → DetZeroInv n M2) := by
  intro fuel
  induction fuel with
  | zero =>
    intro i M neg hf hin hsh
    have hni : n - i = 0 := by omega
    have hieq : i = n := by omega
    rw [hni]
    exact ⟨M, neg, rfl, hsh, by rw [hieq]; exact id⟩
  | succ f ih =>
    intro i M neg hf hin hsh
    have hi : i < n := by omega
    have hsplit : n - i = (n - (i + 1)) + 1 := by omega
    rw [hsplit, List.range'_succ]
    obtain ⟨M1, neg1, hok, hsh1, himp1⟩ := @detStep_zeroInv n c i M neg hsh hi
    obtain ⟨M2, neg2, hok2, hsh2, himp2⟩ := ih (i + 1) M1 neg1 (by omega)
      (by omega) hsh1
    refine ⟨M2, neg2, ?_, hsh2, fun hD => himp2 (himp1 hD)⟩
    rw [detLoop, hok]
    exact hok2

lemma foldl_mul_zero_acc (f : ℕ → ℚ) : ∀ l : List ℕ,
    l.foldl (fun a cc => a * f cc) 0 = 0 := by
  intro l
  induction l with
  | nil => rfl
  | cons j l ih =>
    rw [List.foldl_cons, zero_mul]
    exact ih

lemma foldl_mul_zero (f : ℕ → ℚ) : ∀ (l : List ℕ) (init : ℚ),
    (∃ x ∈ l, f x = 0) → l.foldl (fun a cc => a * f cc) init = 0 := by
  intro l
  induction l with
  | nil => intro init h; simp at h
  | cons j l ih =>
    intro init h
    rcases h with ⟨x, hx, hfx⟩
    rcases List.mem_cons.1 hx with hxj | hxl
    · rw [List.foldl_cons, ← hxj, hfx, mul_zero]
      exact foldl_mul_zero_acc f l
    · rw [List.foldl_cons]
      exact ih _ ⟨x, hxl, hfx⟩

lemma diagProd_zero {M : MMat} (h : ∃ d, d < M.length ∧ entry M d d = 0) :
    diagProd M = 0 := by
  obtain ⟨d, hd, hdz⟩ := h
  exact foldl_mul_zero (fun cc => entry M cc cc) (List.range M.length) 1
    ⟨d, List.mem_range.2 hd, hdz⟩

lemma detE_run {A : MMat} (hv : validMat A) :
    ∃ M2 neg2, detE A = .ok (neg2 * diagProd M2) ∧
      mShape A.length (rowAt A 0).length M2 ∧
      (DetZeroInv 0 A → DetZeroInv A.length M2) := by
  have hsh : mShape A.length (rowAt A 0).length A := ⟨rfl, hv.2⟩
  obtain ⟨M2, neg2, hok, hsh2, himp⟩ :=
    @detLoop_inv A.length (rowAt A 0).length (A.length - 0) 0 A 1 rfl
      (by omega) hsh
  refine ⟨M2, neg2, ?_, hsh2, himp⟩
  rw [detE, deepcopyM, mkMatrix_ok hv]
  show (if (dimOf A).2 ≠ (dimOf A).2 then Except.error (.notSquare (dimOf A))
    else match detLoop (List.range A.length) (A, 1) with
      | .error e => .error e
      | .ok s => .ok (s.2 * diagProd s.1)) = Except.ok (neg2 * diagProd M2)
  rw [if_neg (fun h => h rfl), List.range_eq_range']
  have hAA : A.length - 0 = A.length := by omega
  rw [hAA] at hok
  rw [hok]

lemma detE_zero {A : MMat} (hv : validMat A) (hz : DetZeroInv 0 A) :
    detE A = .ok 0 := by
  obtain ⟨M2, neg2, hok, hsh2, himp⟩ := detE_run hv
  have hZ := himp hz
  have hM2len : M2.length = A.length := hsh2.1
  rw [hok]
  have hdiag : diagProd M2 = 0 := by
    rcases hZ with ⟨a, b, ha, hab, hbM, heq⟩ | ⟨z, hzM, hz2⟩ | ⟨d, hd, hd2⟩
    · omega
    · exact diagProd_zero ⟨z, hzM, rowIsZero_getD hz2 z⟩
    · exact diagProd_zero ⟨d, by omega, hd2⟩
  rw [hdiag, mul_zero]

/-! ## Constructor characterization -/

lemma mem_eq_of_length_le_one {l : List ℕ} (h : l.length ≤ 1) :
    ∀ a ∈ l, ∀ b ∈ l, a = b := by
  match l with
  | [] => intro a ha; simp at ha
  | [z] =>
    intro a ha b hb
    simp at ha hb
    rw [ha, hb]
  | z1 :: z2 :: t => simp at h

lemma allSame_iff_dedup {x : List (List ℚ)} (hx : x.length ≠ 0) :
    (∀ r ∈ x, r.length = (x.headD []).length) ↔
      ¬ 1 < ((x.map List.length).dedup).length := by
  constructor
  · intro h
    have hle := nodup_all_eq_length_le_one (List.nodup_dedup (x.map List.length))
      (x.headD []).length ?_
    · omega
    · intro y hy
      rw [List.mem_dedup, List.mem_map] at hy
      obtain ⟨r, hr, rfl⟩ := hy
      exact h r hr
  · intro h r hr
    match x, hx with
    | r0 :: rest, _ =>
      have hle : ((List.map List.length (r0 :: rest)).dedup).length ≤ 1 := by
        omega
      have h1 : r.length ∈ (List.map List.length (r0 :: rest)).dedup := by
        rw [List.mem_dedup, List.mem_map]
        exact ⟨r, hr, rfl⟩
      have h2 : r0.length ∈ (List.map List.length (r0 :: rest)).dedup := by
        rw [List.mem_dedup, List.mem_map]
        exact ⟨r0, by simp, rfl⟩
      have := mem_eq_of_length_le_one hle _ h1 _ h2
      simpa using this

/-! ## Checked determinant: error discipline -/

lemma entryE_error {M : MMat} {i j : ℕ} {e : MErr}
    (h : entryE M i j = .error e) : e = .indexError := by
  rw [entryE] at h
  by_cases hb : i < M.length ∧ j < (rowAt M i).length
  · rw [if_pos hb] at h
    cases h
  · rw [if_neg hb] at h
    simp only [Except.error.injEq] at h
    exact h.symm

lemma entryE_ok {M : MMat} {i j : ℕ} {x : ℚ} (h : entryE M i j = .ok x) :
    i < M.length ∧ j < (rowAt M i).length ∧ x = entry M i j := by
  rw [entryE] at h
  by_cases hb : i < M.length ∧ j < (rowAt M i).length
  · rw [if_pos hb] at h
    simp only [Except.ok.injEq] at h
    exact ⟨hb.1, hb.2, h.symm⟩
  · rw [if_neg hb] at h
    cases h

lemma entryE_ok_of_bounds {M : MMat} {i j : ℕ} (h1 : i < M.length)
    (h2 : j < (rowAt M i).length) : entryE M i j = .ok (entry M i j) := by
  rw [entryE, if_pos ⟨h1, h2⟩]

lemma findFirstNonzeroEx_error {M : MMat} {i : ℕ} {e : MErr} :
    ∀ {js : List ℕ}, findFirstNonzeroEx M i js = .error e → e = .indexError := by
  intro js
  induction js with
  | nil => intro h; cases h
  | cons k rest ih =>
    intro h
    rw [findFirstNonzeroEx] at h
    cases hE : entryE M k i with
    | error e2 =>
      simp only [hE] at h
      simp only [Except.error.injEq] at h
      rw [← h]
      exact entryE_error hE
    | ok x =>
      simp only [hE] at h
      by_cases hx : x ≠ 0
      · rw [if_pos hx] at h
        cases h
      · rw [if_neg hx] at h
        exact ih h

lemma findFirstNonzeroEx_some {M : MMat} {i k : ℕ} :
    ∀ {js : List ℕ}, findFirstNonzeroEx M i js = .ok (some k) →
      k ∈ js ∧ k < M.length ∧ i < (rowAt M k).length ∧ entry M k i ≠ 0 := by
  intro js
  induction js with
  | nil => intro h; cases h
  | cons a rest ih =>
    intro h
    rw [findFirstNonzeroEx] at h
    cases hE : entryE M a i with
    | error e2 =>
      simp only [hE] at h
      cases h
    | ok x =>
      simp only [hE] at h
      by_cases hx : x ≠ 0
      · rw [if_pos hx] at h
        simp only [Except.ok.injEq, Option.some.injEq] at h
        obtain ⟨h1, h2, h3⟩ := entryE_ok hE
        rw [← h]
        rw [h3] at hx
        exact ⟨List.mem_cons_self _ _, h1, h2, hx⟩
      · rw [if_neg hx] at h
        obtain ⟨hm, hrest⟩ := ih h
        exact ⟨List.mem_cons_of_mem _ hm, hrest⟩

lemma findFirstNonzeroEx_ok_of_bounds {M : MMat} {i : ℕ} :
    ∀ (js : List ℕ), (∀ k ∈ js, k < M.length ∧ i < (rowAt M k).length) →
      ∃ o, findFirstNonzeroEx M i js = .ok o := by
  intro js
  induction js with
  | nil => intro _; exact ⟨none, rfl⟩
  | cons a rest ih =>
    intro hb
    obtain ⟨h1, h2⟩ := hb a (List.mem_cons_self _ _)
    by_cases hx : entry M a i ≠ 0
    · refine ⟨some a, ?_⟩
      rw [findFirstNonzeroEx]
      simp only [entryE_ok_of_bounds h1 h2, if_pos hx]
    · obtain ⟨o, ho⟩ := ih (fun x hx2 => hb x (List.mem_cons_of_mem _ hx2))
      refine ⟨o, ?_⟩
      rw [findFirstNonzeroEx]
      simp only [entryE_ok_of_bounds h1 h2, if_neg hx]
      exact ho

lemma detElimEx_run {i : ℕ} {pivot : ℚ} (hpv : pivot ≠ 0) :
    ∀ (js : List ℕ) (M : MMat),
      (∀ e, detElimEx i pivot js M = .error e → e = .indexError) ∧
      (∀ M2, detElimEx i pivot js M = .ok M2 → M2.length = M.length) := by
  intro js
  induction js with
  | nil =>
    intro M
    refine ⟨fun e h => ?_, fun M2 h => ?_⟩
    · cases h
    · cases h
      rfl
  | cons j rest ih =>
    intro M
    constructor
    · intro e h
      rw [detElimEx] at h
      cases hE : entryE M j i with
      | error e2 =>
        simp only [hE] at h
        simp only [Except.error.injEq] at h
        rw [← h]
        exact entryE_error hE
      | ok x =>
        simp only [hE, rowDiv, if_neg hpv] at h
        exact (ih _).1 e h
    · intro M2 h
      rw [detElimEx] at h
      cases hE : entryE M j i with
      | error e2 =>
        simp only [hE] at h
        cases h
      | ok x =>
        simp only [hE, rowDiv, if_neg hpv] at h
        rw [(ih _).2 M2 h]
        simp

lemma detElimEx_ok {n c i : ℕ} {pivot : ℚ} (hpv : pivot ≠ 0) (hic : i < c)
    (hi : i < n) : ∀ (js : List ℕ) (M : MMat), mShape n c M →
      (∀ j ∈ js, j < n) →
      ∃ M2, detElimEx i pivot js M = .ok M2 ∧ mShape n c M2 := by
  intro js
  induction js with
  | nil =>
    intro M hsh _
    exact ⟨M, rfl, hsh⟩
  | cons j rest ih =>
    intro M hsh hb
    have hjn : j < n := hb j (List.mem_cons_self _ _)
    have hjM : j < M.length := by rw [hsh.1]; exact hjn
    have hcol : i < (rowAt M j).length := by rw [mShape_rowAt hsh hjn]; exact hic
    have hlen : (rowAdd (rowAt M j)
        (rowScale (rowScale (rowNeg (rowAt M i)) (entry M j i)) (1 / pivot))).length = c := by
      rw [length_rowAdd _ _ (by
        rw [length_rowScale, length_rowScale, length_rowNeg,
          mShape_rowAt hsh hjn, mShape_rowAt hsh hi]),
        mShape_rowAt hsh hjn]
    obtain ⟨M2, hok, hsh2⟩ := ih (M.set j (rowAdd (rowAt M j)
      (rowScale (rowScale (rowNeg (rowAt M i)) (entry M j i)) (1 / pivot))))
      (mShape_set hsh hlen j) (fun a ha => hb a (List.mem_cons_of_mem _ ha))
    refine ⟨M2, ?_, hsh2⟩
    rw [detElimEx]
    simp only [entryE_ok_of_bounds hjM hcol, rowDiv, if_neg hpv]
    exact hok

lemma detStepEx_run {i : ℕ} {M : MMat} {neg : ℚ} (hi : i < M.length) :
    (∀ e, detStepEx (M, neg) i = .error e → e = .indexError) ∧
    (∀ s2, detStepEx (M, neg) i = .ok s2 → s2.1.length = M.length) := by
  cases hfp : findPivotDetEx M i with
  | error e2 =>
    constructor
    · intro e h
      rw [detStepEx] at h
      simp only [hfp] at h
      simp only [Except.error.injEq] at h
      rw [← h]
      exact findFirstNonzeroEx_error hfp
    · intro s2 h
      rw [detStepEx] at h
      simp only [hfp] at h
      cases h
  | ok o =>
    cases o with
    | none =>
      constructor
      · intro e h
        rw [detStepEx] at h
        simp only [hfp] at h
        cases h
      · intro s2 h
        rw [detStepEx] at h
        simp only [hfp] at h
        simp only [Except.ok.injEq] at h
        rw [← h]
    | some k =>
      obtain ⟨hmem, hkM, hcol, hnz⟩ := findFirstNonzeroEx_some hfp
      have hM1len : (if k = i then M else swapRows M i k).length = M.length := by
        by_cases hki : k = i
        · rw [if_pos hki]
        · rw [if_neg hki, length_swapRows]
      have hM1i : rowAt (if k = i then M else swapRows M i k) i = rowAt M k := by
        by_cases hki : k = i
        · rw [if_pos hki, hki]
        · rw [if_neg hki]
          exact rowAt_swapRows_left M hi
      have hpread : entryE (if k = i then M else swapRows M i k) i i =
          .ok (entry (if k = i then M else swapRows M i k) i i) := by
        refine entryE_ok_of_bounds (by rw [hM1len]; exact hi) ?_
        rw [hM1i]
        exact hcol
      have hpv : entry (if k = i then M else swapRows M i k) i i ≠ 0 := by
        rw [entry_congr hM1i]
        exact hnz
      constructor
      · intro e h
        rw [detStepEx] at h
        simp only [hfp, hpread] at h
        cases helim : detElimEx i (entry (if k = i then M else swapRows M i k) i i)
            (List.range' (i + 1) ((if k = i then M else swapRows M i k).length - (i + 1)))
            (if k = i then M else swapRows M i k) with
        | error e3 =>
          simp only [helim] at h
          simp only [Except.error.injEq] at h
          rw [← h]
          exact (detElimEx_run hpv _ _).1 e3 helim
        | ok M2 =>
          simp only [helim] at h
          cases h
      · intro s2 h
        rw [detStepEx] at h
        simp only [hfp, hpread] at h
        cases helim : detElimEx i (entry (if k = i then M else swapRows M i k) i i)
            (List.range' (i + 1) ((if k = i then M else swapRows M i k).length - (i + 1)))
            (if k = i then M else swapRows M i k) with
        | error e3 =>
          simp only [helim] at h
          cases h
        | ok M2 =>
          simp only [helim] at h
          simp only [Except.ok.injEq] at h
          rw [← h]
          show M2.length = M.length
          rw [(detElimEx_run hpv _ _).2 M2 helim, hM1len]

lemma detLoopEx_run : ∀ (js : List ℕ) (s : MMat × ℚ),
    (∀ j ∈ js, j < s.1.length) →
    (∀ e, detLoopEx js s = .error e → e = .indexError) ∧
    (∀ s2, detLoopEx js s = .ok s2 → s2.1.length = s.1.length) := by
  intro js
  induction js with
  | nil =>
    intro s _
    refine ⟨fun e h => ?_, fun s2 h => ?_⟩
    · cases h
    · cases h
      rfl
  | cons j rest ih =>
    intro s hb
    have hj : j < s.1.length := hb j (List.mem_cons_self _ _)
    have hstep := @detStepEx_run j s.1 s.2 hj
    cases hs : detStepEx (s.1, s.2) j with
    | error e2 =>
      constructor
      · intro e h
        rw [detLoopEx] at h
        have hs2 : detStepEx s j = Except.error e2 := hs
        simp only [hs2] at h
        simp only [Except.error.injEq] at h
        rw [← h]
        exact hstep.1 e2 hs
      · intro s2 h
        rw [detLoopEx] at h
        have hs2 : detStepEx s j = Except.error e2 := hs
        simp only [hs2] at h
        cases h
    | ok s1 =>
      have hlen1 : s1.1.length = s.1.length := hstep.2 s1 hs
      have hrest := ih s1 (fun a ha => by
        rw [hlen1]
        exact hb a (List.mem_cons_of_mem _ ha))
      constructor
      · intro e h
        rw [detLoopEx] at h
        have hs2 : detStepEx s j = Except.ok s1 := hs
        simp only [hs2] at h
        exact hrest.1 e h
      · intro s2 h
        rw [detLoopEx] at h
        have hs2 : detStepEx s j = Except.ok s1 := hs
        simp only [hs2] at h
        rw [hrest.2 s2 h]
        exact hlen1

lemma detStepEx_ok {n c i : ℕ} {M : MMat} {neg : ℚ} (hsh : mShape n c M)
    (hnc : n ≤ c) (hi : i < n) :
    ∃ s2, detStepEx (M, neg) i = .ok s2 ∧ mShape n c s2.1 := by
  have hnM : M.length = n := hsh.1
  obtain ⟨o, ho⟩ := @findFirstNonzeroEx_ok_of_bounds M i
    (List.range' i (M.length - i)) (fun k hk => by
      have hmem := List.mem_range'_1.1 hk
      have hkM : k < M.length := by omega
      have hkn : k < n := by omega
      refine ⟨hkM, ?_⟩
      rw [mShape_rowAt hsh hkn]
      omega)
  have hfp : findPivotDetEx M i = .ok o := ho
  cases o with
  | none =>
    refine ⟨(M, neg), ?_, hsh⟩
    rw [detStepEx]
    simp only [hfp]
  | some k =>
    obtain ⟨hmem, hkM, hcol, hnz⟩ := findFirstNonzeroEx_some hfp
    have hkn : k < n := by omega
    have hsh1 : mShape n c (if k = i then M else swapRows M i k) := by
      by_cases hki : k = i
      · rw [if_pos hki]; exact hsh
      · rw [if_neg hki]; exact mShape_swapRows hsh hi hkn
    have hM1len : (if k = i then M else swapRows M i k).length = n := hsh1.1
    have hM1i : rowAt (if k = i then M else swapRows M i k) i = rowAt M k := by
      by_cases hki : k = i
      · rw [if_pos hki, hki]
      · rw [if_neg hki]
        exact rowAt_swapRows_left M (by omega)
    have hpread : entryE (if k = i then M else swapRows M i k) i i =
        .ok (entry (if k = i then M else swapRows M i k) i i) := by
      refine entryE_ok_of_bounds (by omega) ?_
      rw [hM1i]
      exact hcol
    have hpv : entry (if k = i then M else swapRows M i k) i i ≠ 0 := by
      rw [entry_congr hM1i]
      exact hnz
    obtain ⟨M2, helim, hsh2⟩ := detElimEx_ok hpv (by omega) hi
      (List.range' (i + 1) ((if k = i then M else swapRows M i k).length - (i + 1)))
      (if k = i then M else swapRows M i k) hsh1 (fun j hj => by
        have := List.mem_range'_1.1 hj
        omega)
    refine ⟨(M2, if k = i then neg else -neg), ?_, hsh2⟩
    rw [detStepEx]
    simp only [hfp, hpread, helim]

lemma detLoopEx_ok {n c : ℕ} (hnc : n ≤ c) : ∀ (js : List ℕ) (s : MMat × ℚ),
    mShape n c s.1 → (∀ j ∈ js, j < n) →
    ∃ s2, detLoopEx js s = .ok s2 ∧ mShape n c s2.1 := by
  intro js
  induction js with
  | nil =>
    intro s hsh _
    exact ⟨s, rfl, hsh⟩
  | cons j rest ih =>
    intro s hsh hb
    obtain ⟨s1, hs1, hsh1⟩ :=
      @detStepEx_ok n c j s.1 s.2 hsh hnc (hb j (List.mem_cons_self _ _))
    obtain ⟨s2, hs2, hsh2⟩ := ih s1 hsh1
      (fun a ha => hb a (List.mem_cons_of_mem _ ha))
    refine ⟨s2, ?_, hsh2⟩
    rw [detLoopEx]
    have hs1b : detStepEx s j = Except.ok s1 := hs1
    simp only [hs1b]
    exact hs2

lemma diagFoldEx_error {M : MMat} {e : MErr} : ∀ {js : List ℕ} {a : ℚ},
    diagFoldEx M js a = .error e → e = .indexError := by
  intro js
  induction js with
  | nil => intro a h; cases h
  | cons cc rest ih =>
    intro a h
    rw [diagFoldEx] at h
    cases hE : entryE M cc cc with
    | error e2 =>
      simp only [hE] at h
      simp only [Except.error.injEq] at h
      rw [← h]
      exact entryE_error hE
    | ok x =>
      simp only [hE] at h
      exact ih h

lemma diagFoldEx_ok_of_bounds {M : MMat} : ∀ (js : List ℕ) (a : ℚ),
    (∀ cc ∈ js, cc < M.length ∧ cc < (rowAt M cc).length) →
    ∃ q, diagFoldEx M js a = .ok q := by
  intro js
  induction js with
  | nil => intro a _; exact ⟨a, rfl⟩
  | cons cc rest ih =>
    intro a hb
    obtain ⟨h1, h2⟩ := hb cc (List.mem_cons_self _ _)
    obtain ⟨q, hq⟩ := ih (a * entry M cc cc)
      (fun x hx => hb x (List.mem_cons_of_mem _ hx))
    refine ⟨q, ?_⟩
    rw [diagFoldEx, entryE_ok_of_bounds h1 h2]
    exact hq

lemma detEx_body {A : MMat} (hv : validMat A) :
    detEx A = (if (dimOf A).2 ≠ (dimOf A).2 then
        Except.error (.notSquare (dimOf A))
      else
        match detLoopEx (List.range A.length) (A, 1) with
        | .error e => .error e
        | .ok s =>
          match diagFoldEx s.1 (List.range s.1.length) 1 with
          | .error e => .error e
          | .ok q => .ok (s.2 * q)) := by
  rw [detEx, deepcopyM, mkMatrix_ok hv]

lemma detEx_error {A : MMat} (hv : validMat A) {e : MErr}
    (h : detEx A = .error e) : e = .indexError := by
  rw [detEx_body hv, if_neg (fun hc => hc rfl)] at h
  have hrun := detLoopEx_run (List.range A.length) (A, 1)
    (fun j hj => List.mem_range.1 hj)
  cases hloop : detLoopEx (List.range A.length) (A, 1) with
  | error e2 =>
    simp only [hloop] at h
    simp only [Except.error.injEq] at h
    rw [← h]
    exact hrun.1 e2 hloop
  | ok s =>
    simp only [hloop] at h
    cases hdiag : diagFoldEx s.1 (List.range s.1.length) 1 with
    | error e3 =>
      simp only [hdiag] at h
      simp only [Except.error.injEq] at h
      rw [← h]
      exact diagFoldEx_error hdiag
    | ok q =>
      simp only [hdiag] at h
      cases h

lemma detEx_ok_wide {A : MMat} (hv : validMat A)
    (hwide : A.length ≤ (rowAt A 0).length) : ∃ q, detEx A = .ok q := by
  have hsh : mShape A.length (rowAt A 0).length A := ⟨rfl, hv.2⟩
  obtain ⟨s2, hloop, hsh2⟩ := detLoopEx_ok hwide (List.range A.length) (A, 1)
    hsh (fun j hj => List.mem_range.1 hj)
  obtain ⟨q, hdiag⟩ := @diagFoldEx_ok_of_bounds s2.1 (List.range s2.1.length) 1
    (fun cc hcc => by
      have hcc2 := List.mem_range.1 hcc
      have hccn : cc < A.length := by rw [← hsh2.1]; exact hcc2
      refine ⟨hcc2, ?_⟩
      rw [mShape_rowAt hsh2 hccn]
      omega)
  refine ⟨s2.2 * q, ?_⟩
  rw [detEx_body hv, if_neg (fun hc => hc rfl)]
  simp only [hloop, hdiag]

/-- On the valid 2-by-1 matrix `[[1],[2]]` the checked `det` aborts with
`IndexError`: the dead `NotSquare` check lets the run reach the pivot scan
of column 1, whose first probe `new[1][1]` indexes past the end of a
length-1 row — matching the source's behavior on tall matrices. -/
lemma detEx_tall_aborts : detEx [[(1 : ℚ)], [2]] = .error .indexError := by
  norm_num [detEx, deepcopyM, mkMatrix, detLoopEx, detStepEx, findPivotDetEx,
    findFirstNonzeroEx, detElimEx, entryE, diagFoldEx, rowDiv, rowScale,
    rowNeg, rowAdd, rowAt, entry, swapRows, dimOf, List.range', List.range_succ,
    List.dedup]

/-! ## The claims -/

/-- C1: the spec says `det` on a non-square matrix fails with
`NotSquare(dims)`.  The code compares `new.dim()[1]` with itself (line 113),
a vacuous test, so the check never fires: on the non-square 2×3 matrix
`[[1,2,3],[4,5,6]]` the code runs Gaussian elimination to completion and
returns `-3` instead of failing. -/
theorem det_notSquare_check_dead :
    detE [[(1 : ℚ), 2, 3], [4, 5, 6]] = .ok (-3) := by
  norm_num [detE, deepcopyM, mkMatrix, detLoop, detStep, findPivotDet,
    findFirstNonzero, detElim, rowDiv, rowScale, rowNeg, rowAdd, rowAt, entry,
    swapRows, diagProd, dimOf, List.range', List.range_succ, List.dedup]

/-- C2: on every valid matrix, `ref` succeeds and its result is in
row-echelon form: pivot columns weakly increasing down the non-zero rows,
all-zero rows below every non-zero row, every pivot entry exactly 1. -/
theorem ref_produces_REF (A : MMat) (hv : validMat A) :
    ∃ B, refE A = .ok B ∧ IsREF B := by
  obtain ⟨B, hok, hsh, hinv⟩ := refE_ok hv
  exact ⟨B, hok, isREF_of_refInv hsh hinv⟩

theorem ref_produces_REF_witness :
    ∃ B, refE [[(0 : ℚ), 1], [1, 0]] = .ok B ∧ IsREF B :=
  ref_produces_REF [[(0 : ℚ), 1], [1, 0]] (by constructor <;> simp [rowAt])

/-- C3: on every valid matrix, `rref` succeeds and its result satisfies the
`ref` postcondition plus: every pivot column is zero in every row other than
its own pivot row. -/
theorem rref_produces_RREF (A : MMat) (hv : validMat A) :
    ∃ B, rrefE A = .ok B ∧ IsRREF B := by
  obtain ⟨B, hok, hsh, hinv, hup⟩ := rrefE_ok hv
  exact ⟨B, hok, isRREF_of_inv hsh hinv hup⟩

theorem rref_produces_RREF_witness :
    ∃ B, rrefE [[(1 : ℚ), 2, 3], [4, 5, 6]] = .ok B ∧ IsRREF B :=
  rref_produces_RREF [[(1 : ℚ), 2, 3], [4, 5, 6]] (by constructor <;> simp [rowAt])

/-- C4: no division by exact zero is ever performed by the three algorithms
on a valid matrix.  `det`, embedded with every column access checked
(`detEx`), can only return a value or abort with `IndexError` — which the
dead `NotSquare` check makes reachable on matrices with more rows than
columns — never with `DivideByZero`, because its only divisor is the
scan-confirmed non-zero pivot; it does return a value whenever the matrix
has at most as many rows as columns, the square case included.  `ref` and
`rref` run to completion on every valid matrix, so their division branches
are likewise never taken. -/
theorem no_division_by_zero (A : MMat) (hv : validMat A) :
    detEx A ≠ .error .divideByZero ∧
    (∀ e, detEx A = .error e → e = .indexError) ∧
    ((dimOf A).1 ≤ (dimOf A).2 → ∃ q, detEx A = .ok q) ∧
    (∃ B, refE A = .ok B) ∧ (∃ C, rrefE A = .ok C) := by
  refine ⟨?_, ?_, ?_, ?_, ?_⟩
  · intro h
    cases detEx_error hv h
  · intro e h
    exact detEx_error hv h
  · intro hwide
    exact detEx_ok_wide hv hwide
  · obtain ⟨B, href, _, _⟩ := refE_ok hv
    exact ⟨B, href⟩
  · obtain ⟨C, hrref, _, _, _⟩ := rrefE_ok hv
    exact ⟨C, hrref⟩

theorem no_division_by_zero_witness :
    detEx [[(1 : ℚ), 2], [3, 4]] ≠ .error .divideByZero ∧
    (∀ e, detEx [[(1 : ℚ), 2], [3, 4]] = .error e → e = .indexError) ∧
    ((dimOf [[(1 : ℚ), 2], [3, 4]]).1 ≤ (dimOf [[(1 : ℚ), 2], [3, 4]]).2 →
      ∃ q, detEx [[(1 : ℚ), 2], [3, 4]] = .ok q) ∧
    (∃ B, refE [[(1 : ℚ), 2], [3, 4]] = .ok B) ∧
    (∃ C, rrefE [[(1 : ℚ), 2], [3, 4]] = .ok C) :=
  no_division_by_zero [[(1 : ℚ), 2], [3, 4]] (by constructor <;> simp [rowAt])

/-- C5: `Matrix` construction fails with `EmptyMatrix` exactly on zero rows,
fails with `RaggedRows` carrying the ascending distinct row lengths exactly
when the rows disagree in length, succeeds on every non-empty uniform input,
and in particular rejects `[[1,2],[3,4,5]]` with `RaggedRows [2,3]` and `[]`
with `EmptyMatrix`. -/
theorem constructor_validation : ∀ x : List (List ℚ),
    (mkMatrix x = .error .emptyMatrix ↔ x.length = 0) ∧
    (∀ L, mkMatrix x = .error (.raggedRows L) ↔
      (x.length ≠ 0 ∧ ¬(∀ r ∈ x, r.length = (x.headD []).length) ∧
        L = distinctLengths x)) ∧
    (mkMatrix x = .ok x ↔
      (x.length ≠ 0 ∧ ∀ r ∈ x, r.length = (x.headD []).length)) ∧
    mkMatrix [[(1 : ℚ), 2], [3, 4, 5]] = .error (.raggedRows [2, 3]) ∧
    mkMatrix ([] : List (List ℚ)) = .error .emptyMatrix := by
  intro x
  refine ⟨?_, ?_, ?_, ?_, ?_⟩
  · by_cases h0 : x.length = 0
    · rw [mkMatrix, if_pos h0]
      simp [h0]
    · rw [mkMatrix, if_neg h0]
      by_cases hs : 1 < ((x.map List.length).dedup).length
      · rw [if_pos hs]
        simp [h0]
      · rw [if_neg hs]
        simp [h0]
  · intro L
    by_cases h0 : x.length = 0
    · rw [mkMatrix, if_pos h0]
      constructor
      · intro h
        simp at h
      · rintro ⟨h1, _, _⟩
        exact absurd h0 h1
    · rw [mkMatrix, if_neg h0]
      by_cases hs : 1 < ((x.map List.length).dedup).length
      · rw [if_pos hs]
        have hns : ¬(∀ r ∈ x, r.length = (x.headD []).length) := by
          rw [allSame_iff_dedup h0]
          omega
        simp only [Except.error.injEq, MErr.raggedRows.injEq]
        constructor
        · intro h
          exact ⟨h0, hns, h.symm⟩
        · rintro ⟨h1, h2, h3⟩
          exact h3.symm
      · rw [if_neg hs]
        have hsame : ∀ r ∈ x, r.length = (x.headD []).length :=
          (allSame_iff_dedup h0).2 hs
        constructor
        · intro h
          cases h
        · rintro ⟨h1, h2, h3⟩
          exact absurd hsame h2
  · by_cases h0 : x.length = 0
    · rw [mkMatrix, if_pos h0]
      constructor
      · intro h
        cases h
      · rintro ⟨h1, _⟩
        exact absurd h0 h1
    · rw [mkMatrix, if_neg h0]
      by_cases hs : 1 < ((x.map List.length).dedup).length
      · rw [if_pos hs]
        have hns : ¬(∀ r ∈ x, r.length = (x.headD []).length) := by
          rw [allSame_iff_dedup h0]
          omega
        constructor
        · intro h
          cases h
        · rintro ⟨h1, h2⟩
          exact absurd h2 hns
      · rw [if_neg hs]
        have hsame : ∀ r ∈ x, r.length = (x.headD []).length :=
          (allSame_iff_dedup h0).2 hs
        exact ⟨fun h => ⟨h0, hsame⟩, fun h => rfl⟩
  · norm_num [mkMatrix, distinctLengths, List.dedup, List.insertionSort,
      List.orderedInsert]
  · norm_num [mkMatrix]

theorem constructor_validation_witness :
    mkMatrix [[(1 : ℚ), 2], [3, 4, 5]] = .error (.raggedRows [2, 3]) :=
  (constructor_validation [[(1 : ℚ), 2], [3, 4, 5]]).2.2.2.1

/-- C6: each algorithm works on a private deep copy.  `Matrix.__deepcopy__`
re-validates and reproduces the receiver exactly (`deepcopyM A = .ok A`),
and each algorithm's result is the same pure function applied directly to
the receiver's value — the embedding rebinding rows only inside that copy,
the original matrix value is never altered by `det`, `ref` or `rref`. -/
theorem algorithms_leave_input_unchanged (A : MMat) (hv : validMat A) :
    deepcopyM A = .ok A ∧
    refE A = refLoop (List.range A.length) A ∧
    detE A = (if (dimOf A).2 ≠ (dimOf A).2 then
        Except.error (.notSquare (dimOf A))
      else
        match detLoop (List.range A.length) (A, 1) with
        | .error e => .error e
        | .ok s => .ok (s.2 * diagProd s.1)) ∧
    (∀ B, refE A = .ok B →
      rrefE A = rrefLoop (List.range' 1 (B.length - 1)) B) := by
  refine ⟨mkMatrix_ok hv, ?_, ?_, ?_⟩
  · rw [refE, deepcopyM, mkMatrix_ok hv]
  · rw [detE, deepcopyM, mkMatrix_ok hv]
  · intro B hB
    rw [rrefE, hB]

theorem algorithms_leave_input_unchanged_witness :
    deepcopyM [[(1 : ℚ), 2], [3, 4]] = .ok [[(1 : ℚ), 2], [3, 4]] :=
  (algorithms_leave_input_unchanged [[(1 : ℚ), 2], [3, 4]]
    (by constructor <;> simp [rowAt])).1

/-- C7: `rref` is idempotent: the result of `rref` on a valid matrix is a
fixed point of `rref`, so `rref (rref A) = rref A` entry for entry. -/
theorem rref_idempotent (A : MMat) (hv : validMat A) :
    ∃ B, rrefE A = .ok B ∧ rrefE B = .ok B := by
  obtain ⟨B, hok, hsh, hinv, hup⟩ := rrefE_ok hv
  exact ⟨B, hok, rrefE_fix hsh hv.1 hinv hup⟩

theorem rref_idempotent_witness :
    ∃ B, rrefE [[(1 : ℚ), 2, 3], [4, 5, 6]] = .ok B ∧ rrefE B = .ok B :=
  rref_idempotent [[(1 : ℚ), 2, 3], [4, 5, 6]] (by constructor <;> simp [rowAt])

/-- C8: on every valid square matrix containing an all-zero row or two
identical rows, `det` returns exactly zero. -/
theorem det_zero_certificates (A : MMat) (hv : validMat A)
    (hsq : (dimOf A).1 = (dimOf A).2)
    (hzd : (∃ z, z < A.length ∧ rowIsZero (rowAt A z)) ∨
      (∃ a b, a < b ∧ b < A.length ∧ rowAt A a = rowAt A b)) :
    detE A = .ok 0 := by
  refine detE_zero hv ?_
  rcases hzd with ⟨z, hz, hz2⟩ | ⟨a, b, hab, hbA, heq⟩
  · exact Or.inr (Or.inl ⟨z, hz, hz2⟩)
  · exact Or.inl ⟨a, b, by omega, hab, hbA, heq⟩

theorem det_zero_certificates_witness :
    detE [[(1 : ℚ), 2], [1, 2]] = .ok 0 :=
  det_zero_certificates [[(1 : ℚ), 2], [1, 2]]
    (by constructor <;> simp [rowAt]) rfl
    (Or.inr ⟨0, 1, by norm_num, by norm_num, rfl⟩)

/-- C9: the spec's concrete scenarios: `det [[1,2],[3,4]] = -2`,
`ref [[0,1],[1,0]] = [[1,0],[0,1]]`, and
`rref [[1,2,3],[4,5,6]] = [[1,0,-1],[0,1,2]]`. -/
theorem concrete_scenarios :
    detE [[(1 : ℚ), 2], [3, 4]] = .ok (-2) ∧
    refE [[(0 : ℚ), 1], [1, 0]] = .ok [[1, 0], [0, 1]] ∧
    rrefE [[(1 : ℚ), 2, 3], [4, 5, 6]] = .ok [[1, 0, -1], [0, 1, 2]] := by
  refine ⟨?_, ?_, ?_⟩ <;>
    norm_num [detE, refE, rrefE, deepcopyM, mkMatrix, detLoop, detStep,
      findPivotDet, findFirstNonzero, detElim, refLoop, refStep, choosePivot,
      refCandidates, minPair, rowPivot, refElim, rrefLoop, rrefStep, rrefElim,
      rowDiv, rowScale, rowNeg, rowAdd, rowAt, entry, swapRows, diagProd,
      dimOf, List.range', List.range_succ, List.dedup]

/-- C10: `ref` and `rref` preserve the row and column counts and return
valid matrices — the constructor invariants survive both algorithms. -/
theorem elimination_preserves_dims (A : MMat) (hv : validMat A) :
    ∃ B C, refE A = .ok B ∧ rrefE A = .ok C ∧
      dimOf B = dimOf A ∧ dimOf C = dimOf A ∧ validMat B ∧ validMat C := by
  obtain ⟨B, hokB, hshB, _⟩ := refE_ok hv
  obtain ⟨C, hokC, hshC, _, _⟩ := rrefE_ok hv
  have hn : 0 < A.length := hv.1
  refine ⟨B, C, hokB, hokC, ?_, ?_, validMat_of_mShape hshB hn,
    validMat_of_mShape hshC hn⟩
  · rw [dimOf, dimOf, hshB.1, mShape_rowAt hshB hn]
  · rw [dimOf, dimOf, hshC.1, mShape_rowAt hshC hn]

theorem elimination_preserves_dims_witness :
    ∃ B C, refE [[(1 : ℚ), 2], [3, 4]] = .ok B ∧
      rrefE [[(1 : ℚ), 2], [3, 4]] = .ok C ∧
      dimOf B = dimOf [[(1 : ℚ), 2], [3, 4]] ∧
      dimOf C = dimOf [[(1 : ℚ), 2], [3, 4]] ∧ validMat B ∧ validMat C :=
  elimination_preserves_dims [[(1 : ℚ), 2], [3, 4]]
    (by constructor <;> simp [rowAt])
